import Mathlib

/-!
# OS Scheduler Pro — verification of the scheduling engine

A shallow embedding of the scheduling engine of the repository
(`process.py`, `scheduling_algorithms.py`) and proofs about it.

Modelling conventions:
* Python floats (times, bursts, quanta) are modelled as rationals (`ℚ`).
* Python strings (process ids) are Lean `String`s; Python's lexicographic
  string comparison is modelled by an explicit structural comparison on the
  code points (`charsLT`), which agrees with Python `<` on `str`.
* Python exceptions (`ValueError`, and the `AttributeError` that
  `sjf_preemptive`/`priority_preemptive` hit on their idle path) are
  modelled with `Except SchedErr`.
* The unbounded `while` loops are modelled with an explicit fuel
  parameter; running out of fuel yields the artificial error `.fuelOut`
  (top level calls supply enough fuel for any terminating run, and all
  general theorems are conditional on an `.ok` result).
* `schedule.append(x)` is modelled by consing onto a reversed accumulator
  which is finally reversed; `schedule[-1]` is the accumulator's head.
* Python's `heapq` heap of `(key, pid, process)` tuples is modelled as a
  list kept sorted by the strict order on `(key, pid)`; since pids are
  keys' second components, `heappop` returns exactly the least tuple, so
  the sorted-list model is observationally the Python heap.
-/

namespace OSSchedulerPro

/-- Python's lexicographic `<` on strings, on the underlying char lists. -/
def charsLT : List Char → List Char → Bool
  | [], [] => false
  | [], _ :: _ => true
  | _ :: _, [] => false
  | a :: as, b :: bs =>
    if a.toNat < b.toNat then true
    else if b.toNat < a.toNat then false
    else charsLT as bs

/-- Python `a < b` on process-id strings. -/
def pidLT (a b : String) : Bool := charsLT a.data b.data

/-- Python `a == b` on process-id strings. -/
def pidEq (a b : String) : Bool := a == b

/-- Python `a <= b` on process-id strings (total order: `<` or `=`). -/
def pidLE (a b : String) : Bool := pidLT a b || pidEq a b

/-- Python tuple comparison `(k₁, s₁) < (k₂, s₂)` (strict lexicographic). -/
def keyLT {κ : Type} [LinearOrder κ] (a b : κ × String) : Bool :=
  a.1 < b.1 || (decide (a.1 = b.1) && pidLT a.2 b.2)

/-- Python tuple comparison `(k₁, s₁) <= (k₂, s₂)` (lexicographic). -/
def keyLE {κ : Type} [LinearOrder κ] (a b : κ × String) : Bool :=
  a.1 < b.1 || (decide (a.1 = b.1) && pidLE a.2 b.2)

/-- `process.py` — the `Process` dataclass.  `remaining_time` is a real
field of the dataclass (defaulted to `burst_time` by `__post_init__`). -/
structure Process where
  pid : String
  arrival_time : ℚ
  burst_time : ℚ
  priority : Option Int
  remaining_time : ℚ
deriving DecidableEq, Repr

/-- `Process(pid, arrival, burst, priority)` with `__post_init__`
defaulting `remaining_time` to `burst_time`. -/
def mkProcess (pid : String) (arrival_time burst_time : ℚ)
    (priority : Option Int) : Process :=
  ⟨pid, arrival_time, burst_time, priority, burst_time⟩

/-- `Process.is_completed`: `self.remaining_time <= 0`. -/
def Process.is_completed (p : Process) : Bool := p.remaining_time ≤ 0

/-- `Process.execute(time_quantum)`: runs for
`min(time_quantum, remaining_time)`, decrementing `remaining_time`;
returns the actual execution time together with the updated process
(the Python method mutates `self` in place). -/
def Process.execute (p : Process) (time_quantum : ℚ) : ℚ × Process :=
  let execution_time := min time_quantum p.remaining_time
  (execution_time, { p with remaining_time := p.remaining_time - execution_time })

/-- The working copy `Process(p.pid, p.arrival_time, p.burst_time, p.priority)`
made at the start of each algorithm (`remaining_time` re-defaults to
`burst_time`). -/
def copyProcess (p : Process) : Process :=
  mkProcess p.pid p.arrival_time p.burst_time p.priority

/-- One `(process_id, start_time, end_time)` tuple of a schedule.
`pid = "IDLE"` is the idle sentinel. -/
structure Entry where
  pid : String
  start_time : ℚ
  end_time : ℚ
deriving DecidableEq, Repr

/-- The metrics dictionary returned by `calculate_metrics`. -/
structure Metrics where
  average_turnaround_time : ℚ
  average_waiting_time : ℚ
  cpu_utilization : ℚ
  total_processes : Nat
  total_time : ℚ
deriving DecidableEq, Repr

/-- `SchedulingResult`.  `metrics = none` models the empty dict `{}`
returned for empty input. -/
structure SchedulingResult where
  schedule : List Entry
  metrics : Option Metrics
  algorithm_name : String
deriving DecidableEq, Repr

/-- The failures the engine can hit. -/
inductive SchedErr
  /-- `ValueError(f"Process {pid} does not have a priority assigned")`. -/
  | missingPriority (pid : String)
  /-- `ValueError("Time quantum must be positive")`. -/
  | invalidQuantum
  /-- `AttributeError`: `current_process.execute(1.0)` with
  `current_process is None` (the preemptive idle path). -/
  | noneTypeExec
  /-- `ValueError`: `min()` applied to an empty sequence. -/
  | emptyMin
  /-- `IndexError`: `popleft` from an empty deque. -/
  | emptyPop
  /-- Artifact of the fuelled loop model, not a Python error. -/
  | fuelOut
deriving DecidableEq, Repr

/-- `round(x, 2)`: rounding to two decimal places. -/
def round2 (q : ℚ) : ℚ := (round (q * 100) : ℚ) / 100

/-- The `completion_times` dict of `calculate_metrics`: iterate the
schedule, overwriting `completion_times[pid] = end_time` for each
non-idle entry. -/
def completion_times (schedule : List Entry) : String → Option ℚ :=
  schedule.foldl
    (fun m e =>
      if pidEq e.pid "IDLE" then m
      else fun pid => if pidEq pid e.pid then some e.end_time else m pid)
    (fun _ => none)

/-- `max(end_time for _, _, end_time in schedule) if schedule else 0`. -/
def scheduleMaxEnd : List Entry → ℚ
  | [] => 0
  | e :: rest => (rest.map Entry.end_time).foldl max e.end_time

/-- `calculate_metrics(processes, schedule)` from
`scheduling_algorithms.py`.  The single Python loop that appends to both
`turnaround_times` and `waiting_times` is rendered as two `filterMap`s
(processes without a completion time contribute to neither list). -/
def calculate_metrics (processes : List Process) (schedule : List Entry) :
    Metrics :=
  let ct := completion_times schedule
  let turnaround_times :=
    processes.filterMap fun p => (ct p.pid).map fun c => c - p.arrival_time
  let waiting_times :=
    processes.filterMap fun p =>
      (ct p.pid).map fun c => c - p.arrival_time - p.burst_time
  let avg_turnaround_time :=
    if turnaround_times.isEmpty then 0
    else turnaround_times.sum / turnaround_times.length
  let avg_waiting_time :=
    if waiting_times.isEmpty then 0 else waiting_times.sum / waiting_times.length
  let total_time := scheduleMaxEnd schedule
  let cpu_time :=
    ((schedule.filter fun e => !(pidEq e.pid "IDLE")).map
      fun e => e.end_time - e.start_time).sum
  let cpu_utilization := if total_time > 0 then cpu_time / total_time * 100 else 0
  { average_turnaround_time := round2 avg_turnaround_time
    average_waiting_time := round2 avg_waiting_time
    cpu_utilization := round2 cpu_utilization
    total_processes := processes.length
    total_time := round2 total_time }

/-- Insert into a list sorted by `le` (before the first element not
`le`-below the inserted one; stable for Python's stable sort). -/
def insertSorted {α : Type} (le : α → α → Bool) (x : α) : List α → List α
  | [] => [x]
  | y :: ys => if le x y then x :: y :: ys else y :: insertSorted le x ys

/-- Stable insertion sort; models Python's stable `sorted`/`list.sort`. -/
def insertionSort {α : Type} (le : α → α → Bool) : List α → List α
  | [] => []
  | x :: xs => insertSorted le x (insertionSort le xs)

/-- Python `min(l, key=key)` on a nonempty list: the first element whose
key is minimal (`none` on `[]`, where Python raises `ValueError`). -/
def pyMinBy {α κ : Type} (key : α → κ) (klt : κ → κ → Bool) :
    List α → Option α
  | [] => none
  | x :: xs => some (xs.foldl (fun best q => if klt (key q) (key best) then q else best) x)

/-- Python `set.add` on the model of a pid set as a duplicate-free list. -/
def setAdd (s : List String) (pid : String) : List String :=
  if s.any (fun x => pidEq x pid) then s else pid :: s

/-- The shared schedule-entry emission of the preemptive algorithms and
round robin, on the reversed schedule accumulator:
`if not schedule or schedule[-1][0] != pid or schedule[-1][2] != start_time:`
append a new entry, `else` extend the last entry to the new end time. -/
def appendOrExtend (sched : List Entry) (pid : String) (start_time end_time : ℚ) :
    List Entry :=
  match sched with
  | [] => [⟨pid, start_time, end_time⟩]
  | last :: rest =>
    if pidEq last.pid pid && decide (last.end_time = start_time) then
      ⟨pid, last.start_time, end_time⟩ :: rest
    else ⟨pid, start_time, end_time⟩ :: last :: rest

/-- The sort key `lambda p: (p.arrival_time, p.pid)`. -/
def arrivalKeyLE (p q : Process) : Bool :=
  keyLE (p.arrival_time, p.pid) (q.arrival_time, q.pid)

/-- The body of `fcfs_scheduling`'s loop over the sorted processes. -/
def fcfsLoop : List Process → ℚ → List Entry → List Entry
  | [], _, sched => sched.reverse
  | p :: rest, current_time, sched =>
    let t1 := if current_time < p.arrival_time then p.arrival_time else current_time
    let sched1 :=
      if current_time < p.arrival_time then
        Entry.mk "IDLE" current_time p.arrival_time :: sched
      else sched
    fcfsLoop rest (t1 + p.burst_time) (Entry.mk p.pid t1 (t1 + p.burst_time) :: sched1)

/-- `fcfs_scheduling(processes)`. -/
def fcfs_scheduling (processes : List Process) : SchedulingResult :=
  if processes.isEmpty then ⟨[], none, "FCFS"⟩
  else
    let sorted_processes := insertionSort arrivalKeyLE processes
    let schedule := fcfsLoop sorted_processes 0 []
    ⟨schedule, some (calculate_metrics processes schedule),
      "First-Come, First-Served (FCFS)"⟩

/-- The shared loop of `sjf_non_preemptive` and `priority_non_preemptive`
(the two Python functions are textually identical up to the selection
key); `key` is `lambda p: (p.burst_time, p.pid)` resp.
`lambda p: (p.priority, p.pid)`.  `completed` models the
`completed_processes` set of pids. -/
def npLoop {κ : Type} [LinearOrder κ] (key : Process → κ × String)
    (processes_copy : List Process) :
    Nat → List String → ℚ → List Entry → Except SchedErr (List Entry)
  | 0, _, _, _ => .error .fuelOut
  | fuel + 1, completed, current_time, sched =>
    if completed.length < processes_copy.length then
      let available := processes_copy.filter fun p =>
        !(completed.any fun x => pidEq x p.pid) &&
          decide (p.arrival_time ≤ current_time)
      if available.isEmpty then
        match pyMinBy (fun p => p.arrival_time) (fun a b => decide (a < b))
            (processes_copy.filter fun p =>
              !(completed.any fun x => pidEq x p.pid)) with
        | none => .error .emptyMin
        | some next_process =>
          npLoop key processes_copy fuel completed next_process.arrival_time
            (Entry.mk "IDLE" current_time next_process.arrival_time :: sched)
      else
        match pyMinBy key keyLT available with
        | none => .error .emptyMin
        | some selected =>
          npLoop key processes_copy fuel (selected.pid :: completed)
            (current_time + selected.burst_time)
            (Entry.mk selected.pid current_time
              (current_time + selected.burst_time) :: sched)
    else .ok sched.reverse

/-- `sjf_non_preemptive(processes)`. -/
def sjf_non_preemptive (processes : List Process) :
    Except SchedErr SchedulingResult :=
  if processes.isEmpty then .ok ⟨[], none, "SJF Non-Preemptive"⟩
  else
    let processes_copy := processes.map copyProcess
    (npLoop (fun p => (p.burst_time, p.pid)) processes_copy
        (2 * processes_copy.length + 1) [] 0 []).map
      fun schedule =>
        ⟨schedule, some (calculate_metrics processes schedule),
          "Shortest Job First (Non-Preemptive)"⟩

/-- `priority_non_preemptive(processes)`.  The validation loop raises on
the first process whose priority is `None`; after it, every priority is
present, so the key's `getD 0` default is never taken. -/
def priority_non_preemptive (processes : List Process) :
    Except SchedErr SchedulingResult :=
  if processes.isEmpty then .ok ⟨[], none, "Priority Non-Preemptive"⟩
  else
    match processes.find? (fun p => p.priority.isNone) with
    | some p => .error (.missingPriority p.pid)
    | none =>
      let processes_copy := processes.map copyProcess
      (npLoop (fun p => (p.priority.getD 0, p.pid)) processes_copy
          (2 * processes_copy.length + 1) [] 0 []).map
        fun schedule =>
          ⟨schedule, some (calculate_metrics processes schedule),
            "Priority (Non-Preemptive)"⟩

/-- Order on the heap tuples `(key, pid, process)`; the `process`
component is never compared since pids are unique within a run. -/
def heapTupleLE {κ : Type} [LinearOrder κ] (a b : κ × String × Process) :
    Bool :=
  keyLE (a.1, a.2.1) (b.1, b.2.1)

/-- The `while i < len(...) and processes_copy[i].arrival_time <= current_time`
admission loop of the preemptive algorithms: `heappush` newly arrived
processes.  `pending` is `processes_copy[i:]`. -/
def admitLoop {κ : Type} [LinearOrder κ] (hkey : Process → κ) :
    List Process → ℚ → List (κ × String × Process) →
    List Process × List (κ × String × Process)
  | [], _, ready => ([], ready)
  | p :: rest, t, ready =>
    if p.arrival_time ≤ t then
      admitLoop hkey rest t (insertSorted heapTupleLE (hkey p, p.pid, p) ready)
    else (p :: rest, ready)

/-- Ghost record of one 1.0-unit execution step of a preemptive
algorithm, for specification purposes only (it never influences control
flow): the step's start time, the executing pid, the pid and remaining
time of the process that was running before the step's selection, and
the pids and remaining times of the ready-heap members at selection. -/
structure StepRec where
  start_time : ℚ
  running : String
  prev : Option (String × ℚ)
  others : List (String × ℚ)
deriving DecidableEq, Repr

/-- The shared loop of `sjf_preemptive` and `priority_preemptive` (the
two Python functions are textually identical up to the heap key);
`hkey` is `p.remaining_time` resp. `p.priority`.  Returns the schedule
together with the ghost step records. -/
def pLoop {κ : Type} [LinearOrder κ] (hkey : Process → κ) (n : Nat) :
    Nat → List Process → List (κ × String × Process) → Option Process →
    List String → ℚ → List Entry → List StepRec →
    Except SchedErr (List Entry × List StepRec)
  | 0, _, _, _, _, _, _, _ => .error .fuelOut
  | fuel + 1, pending, ready_queue, current_process, completed, current_time,
      sched, steps =>
    if completed.length < n then
      -- admit newly arrived processes into the ready heap
      let (pending1, ready1) := admitLoop hkey pending current_time ready_queue
      -- execute `c` (the process selected below) for one time unit
      let exec := fun (c : Process) (ready' : List (κ × String × Process))
          (prev : Option (String × ℚ)) =>
        let (execution_time, c') := c.execute 1
        let end_time := current_time + execution_time
        let sched1 := appendOrExtend sched c.pid current_time end_time
        let steps1 := StepRec.mk current_time c.pid prev
          (ready1.map fun x => (x.2.1, x.2.2.remaining_time)) :: steps
        if c'.is_completed then
          pLoop hkey n fuel pending1 ready' none (setAdd completed c.pid)
            end_time sched1 steps1
        else
          pLoop hkey n fuel pending1 ready' (some c') completed end_time sched1
            steps1
      match ready1 with
      | [] =>
        -- `next_process` is `None`
        match current_process with
        | some c =>
          -- no switch: the current process keeps running
          exec c [] (some (c.pid, c.remaining_time))
        | none =>
          -- `current_process` stays `None`: the idle path
          match pending1 with
          | _ :: _ =>
            -- the idle entry is appended, `current_time` advanced, and then
            -- `current_process.execute(1.0)` dereferences `None`: the run
            -- dies with an `AttributeError`
            .error .noneTypeExec
          | [] => .ok (sched.reverse, steps.reverse)   -- `break`
      | x :: ready2 =>
        -- `heappop` returns the least `(key, pid, process)` tuple
        let next_process := x.2.2
        match current_process with
        | none =>
          -- switch to `next_process`; no previous process to push back
          exec next_process ready2 none
        | some c =>
          if pidEq next_process.pid c.pid then
            -- unreachable with unique pids (the popped tuple is dropped and
            -- the current process keeps running)
            exec c ready2 (some (c.pid, c.remaining_time))
          else
            -- preempt: push the current process back if incomplete, switch
            let ready3 :=
              if c.is_completed then ready2
              else insertSorted heapTupleLE (hkey c, c.pid, c) ready2
            exec next_process ready3 (some (c.pid, c.remaining_time))
    else .ok (sched.reverse, steps.reverse)

/-- Fuel sufficient for any terminating preemptive run: every iteration
that recurses executes at least `min(1, remaining)` of some process. -/
def preemptiveFuel (processes : List Process) : Nat :=
  (processes.map fun p => ⌈p.burst_time⌉.toNat + 1).sum + processes.length + 1

/-- `sjf_preemptive(processes)`, together with the ghost step records. -/
def sjfPreemptiveRun (processes : List Process) :
    Except SchedErr (SchedulingResult × List StepRec) :=
  if processes.isEmpty then .ok (⟨[], none, "SJF Preemptive"⟩, [])
  else
    let processes_copy := insertionSort arrivalKeyLE (processes.map copyProcess)
    (pLoop (fun p => p.remaining_time) processes_copy.length
        (preemptiveFuel processes_copy) processes_copy [] none [] 0 [] []).map
      fun out =>
        (⟨out.1, some (calculate_metrics processes out.1),
          "Shortest Job First (Preemptive)"⟩, out.2)

/-- `sjf_preemptive(processes)`. -/
def sjf_preemptive (processes : List Process) :
    Except SchedErr SchedulingResult :=
  (sjfPreemptiveRun processes).map fun out => out.1

/-- `priority_preemptive(processes)`, together with the ghost step
records. -/
def priorityPreemptiveRun (processes : List Process) :
    Except SchedErr (SchedulingResult × List StepRec) :=
  if processes.isEmpty then .ok (⟨[], none, "Priority Preemptive"⟩, [])
  else
    match processes.find? (fun p => p.priority.isNone) with
    | some p => .error (.missingPriority p.pid)
    | none =>
      let processes_copy :=
        insertionSort arrivalKeyLE (processes.map copyProcess)
      (pLoop (fun p => p.priority.getD 0) processes_copy.length
          (preemptiveFuel processes_copy) processes_copy [] none [] 0 [] []).map
        fun out =>
          (⟨out.1, some (calculate_metrics processes out.1),
            "Priority (Preemptive)"⟩, out.2)

/-- `priority_preemptive(processes)`. -/
def priority_preemptive (processes : List Process) :
    Except SchedErr SchedulingResult :=
  (priorityPreemptiveRun processes).map fun out => out.1

/-- The FIFO admission loop of `round_robin`:
`while i < len(...) and processes_copy[i].arrival_time <= current_time:
ready_queue.append(processes_copy[i])`. -/
def rrAdmit : List Process → ℚ → List Process → List Process × List Process
  | [], _, queue => ([], queue)
  | p :: rest, t, queue =>
    if p.arrival_time ≤ t then rrAdmit rest t (queue ++ [p])
    else (p :: rest, queue)

/-- Fuel sufficient for any terminating round-robin run. -/
def rrFuel (processes : List Process) (time_quantum : ℚ) : Nat :=
  (processes.map fun p => ⌈p.burst_time / time_quantum⌉.toNat + 1).sum +
    processes.length + 1

/-- The main loop of `round_robin`.  The idle branch of the source does
not `continue`: it falls through to the `popleft` in the same iteration,
which the `idle` value below reproduces. -/
def rrLoop (n : Nat) (time_quantum : ℚ) :
    Nat → List Process → List Process → List String → ℚ → List Entry →
    Except SchedErr (List Entry)
  | 0, _, _, _, _, _ => .error .fuelOut
  | fuel + 1, pending, ready_queue, completed, current_time, sched =>
    if completed.length < n then
      let idle : Option (List Process × List Process × ℚ × List Entry) :=
        match ready_queue, pending with
        | [], [] => none                       -- `break`
        | [], p :: _ =>
          let (pending1, queue1) := rrAdmit pending p.arrival_time []
          some (pending1, queue1, p.arrival_time,
            Entry.mk "IDLE" current_time p.arrival_time :: sched)
        | _ :: _, _ => some (pending, ready_queue, current_time, sched)
      match idle with
      | none => .ok sched.reverse
      | some (pending1, queue1, t1, sched1) =>
        match queue1 with
        | [] => .error .emptyPop               -- unreachable
        | current_process :: queue2 =>
          let (execution_time, c') := current_process.execute time_quantum
          let end_time := t1 + execution_time
          let sched2 := appendOrExtend sched1 current_process.pid t1 end_time
          let (pending2, queue3) := rrAdmit pending1 end_time queue2
          if c'.is_completed then
            rrLoop n time_quantum fuel pending2 queue3
              (setAdd completed current_process.pid) end_time sched2
          else
            rrLoop n time_quantum fuel pending2 (queue3 ++ [c']) completed
              end_time sched2
    else .ok sched.reverse

/-- `round_robin(processes, time_quantum)`. -/
def round_robin (processes : List Process) (time_quantum : ℚ) :
    Except SchedErr SchedulingResult :=
  if processes.isEmpty then .ok ⟨[], none, "Round Robin"⟩
  else if time_quantum ≤ 0 then .error .invalidQuantum
  else
    let processes_copy := insertionSort arrivalKeyLE (processes.map copyProcess)
    let (pending, ready_queue) := rrAdmit processes_copy 0 []
    (rrLoop processes_copy.length time_quantum
        (rrFuel processes_copy time_quantum) pending ready_queue [] 0 []).map
      fun schedule =>
        ⟨schedule, some (calculate_metrics processes schedule),
          "Round Robin (Quantum: " ++ toString time_quantum ++ ")"⟩

/-! ## Specification-side definitions

Definitions written from the claims' words, to be compared with the
source-translated functions above. -/

/-- The spec's chronology property of a schedule: starting from time
`t0`, every entry has `start_time` equal to the running time (so entries
are sorted, non-overlapping, and each `end_time` equals the next
`start_time`), every entry has `start_time < end_time`, and the spans
cover `[t0, t1]` exactly. -/
def chainedTo : ℚ → List Entry → ℚ → Prop
  | t0, [], t1 => t0 = t1
  | t0, e :: rest, t1 =>
    e.start_time = t0 ∧ e.start_time < e.end_time ∧ chainedTo e.end_time rest t1

/-- The chronology property on the reversed schedule accumulator the
loops maintain: the head ends at the current time `t`, and the initial
time is 0. -/
def revChained : List Entry → ℚ → Prop
  | [], t => t = 0
  | e :: rest, t =>
    e.end_time = t ∧ e.start_time < e.end_time ∧ revChained rest e.start_time

/-- The claim's selection rule for preemptive SJF: the pid with the
least `(remaining_time, pid)` among the candidates (first minimum). -/
def specMinPid : List (String × ℚ) → Option String
  | [] => none
  | c :: cs =>
    some ((cs.foldl
      (fun best q => if keyLT (q.2, q.1) (best.2, best.1) then q else best) c).1)

/-- Claim C1's property of one recorded step: the executing process is
the `(remaining_time, pid)`-least among all arrived incomplete
processes — the ready-heap members and the previously running process
together. -/
def c1StepOK (st : StepRec) : Bool :=
  match specMinPid (st.others ++ st.prev.toList) with
  | some m => pidEq st.running m
  | none => true

/-- Claim C1 as stated, as a check on a whole `sjf_preemptive` run
(vacuously true when the run raises). -/
def c1ClaimCheck (processes : List Process) : Bool :=
  match sjfPreemptiveRun processes with
  | .ok out => out.2.all c1StepOK
  | .error _ => true

/-- The selection rule `sjf_preemptive` actually implements, per
recorded step: when some other process is ready, the
`(remaining_time, pid)`-least of those others executes — and therefore a
context switch away from the previously running process happens; only
when no other process is ready does the previous process continue. -/
def amendedStepOK (st : StepRec) : Prop :=
  (st.others = [] → st.prev.map Prod.fst = some st.running) ∧
  (st.others ≠ [] →
    specMinPid st.others = some st.running ∧
      ∀ pr, st.prev = some pr → st.running ≠ pr.1)

/-- The spec's per-process completion time: the end time of the last
non-idle schedule entry bearing the pid. -/
def lastNonIdleEnd (schedule : List Entry) (pid : String) : Option ℚ :=
  ((schedule.filter fun e => !(pidEq e.pid "IDLE") && pidEq e.pid pid).getLast?).map
    Entry.end_time

/-- Arithmetic mean, 0 for the empty list (the spec's aggregation). -/
def specMean (l : List ℚ) : ℚ := if l.isEmpty then 0 else l.sum / l.length

/-- Two processes agreeing on every field except `remaining_time`. -/
def sameSpec (p q : Process) : Prop :=
  p.pid = q.pid ∧ p.arrival_time = q.arrival_time ∧
    p.burst_time = q.burst_time ∧ p.priority = q.priority

/-- The claim's description of round-robin admission: the processes of
`pending` that have arrived by time `t`, in ascending
`(arrival_time, pid)` order. -/
def specArrivedSorted (pending : List Process) (t : ℚ) : List Process :=
  insertionSort arrivalKeyLE (pending.filter fun p => decide (p.arrival_time ≤ t))

/-- The ready heap is sorted by its `(key, pid)` tuples. -/
def heapSorted {κ : Type} [LinearOrder κ] (ready : List (κ × String × Process)) :
    Prop :=
  ready.Pairwise fun a b => heapTupleLE a b = true

/-- In the SJF heap, every stored key is its process's current remaining
time and every stored pid its process's pid. -/
def heapAccurate (ready : List (ℚ × String × Process)) : Prop :=
  ∀ x ∈ ready, x.1 = x.2.2.remaining_time ∧ x.2.1 = x.2.2.pid

/-- All pids present in a preemptive-loop state. -/
def statePids {κ : Type} (pending : List Process)
    (ready : List (κ × String × Process)) (current : Option Process) :
    List String :=
  pending.map Process.pid ++ ready.map (fun x => x.2.1) ++
    (current.map Process.pid).toList

/-- A concrete process used in a permutation pair. -/
def c7A : Process := mkProcess "P1" 0 1 (some 1)

/-- A second concrete process used in a permutation pair. -/
def c7B : Process := mkProcess "P2" 0 2 (some 2)

/-! ## Order lemmas for the pid and key comparisons -/

lemma charToNat_inj {a b : Char} (h : a.toNat = b.toNat) : a = b := by
  apply Char.ext
  have hv : a.val.toNat = b.val.toNat := h
  cases hva : a.val
  cases hvb : b.val
  rw [hva, hvb] at hv
  congr 1
  exact BitVec.toNat_injective hv

lemma charsLT_trans : ∀ (l₁ l₂ l₃ : List Char), charsLT l₁ l₂ = true →
    charsLT l₂ l₃ = true → charsLT l₁ l₃ = true
  | [], [], _, h₁, _ => by simp [charsLT] at h₁
  | [], _ :: _, [], _, h₂ => by simp [charsLT] at h₂
  | [], _ :: _, _ :: _, _, _ => by simp [charsLT]
  | _ :: _, [], _, h₁, _ => by simp [charsLT] at h₁
  | _ :: _, _ :: _, [], _, h₂ => by simp [charsLT] at h₂
  | a :: as, b :: bs, c :: cs, h₁, h₂ => by
    simp only [charsLT] at h₁ h₂ ⊢
    rcases Nat.lt_trichotomy a.toNat b.toNat with hab | hab | hab
    · rcases Nat.lt_trichotomy b.toNat c.toNat with hbc | hbc | hbc
      · have hac : a.toNat < c.toNat := by omega
        simp only [hac, if_true]
      · have hac : a.toNat < c.toNat := by omega
        simp only [hac, if_true]
      · have h3 : ¬ b.toNat < c.toNat := by omega
        simp only [h3, hbc, if_false, if_true] at h₂
        simp at h₂
    · rcases Nat.lt_trichotomy b.toNat c.toNat with hbc | hbc | hbc
      · have hac : a.toNat < c.toNat := by omega
        simp only [hac, if_true]
      · have h1 : ¬ a.toNat < b.toNat := by omega
        have h2 : ¬ b.toNat < a.toNat := by omega
        have h3 : ¬ b.toNat < c.toNat := by omega
        have h4 : ¬ c.toNat < b.toNat := by omega
        have h5 : ¬ a.toNat < c.toNat := by omega
        have h6 : ¬ c.toNat < a.toNat := by omega
        simp only [h1, h2, if_false] at h₁
        simp only [h3, h4, if_false] at h₂
        simp only [h5, h6, if_false]
        exact charsLT_trans as bs cs h₁ h₂
      · have h3 : ¬ b.toNat < c.toNat := by omega
        simp only [h3, hbc, if_false, if_true] at h₂
        simp at h₂
    · have h1 : ¬ a.toNat < b.toNat := by omega
      simp only [h1, hab, if_false, if_true] at h₁
      simp at h₁

lemma charsLT_asymm : ∀ (l₁ l₂ : List Char), charsLT l₁ l₂ = true →
    charsLT l₂ l₁ = false
  | [], [], h => by simp [charsLT] at h
  | [], _ :: _, _ => by simp [charsLT]
  | _ :: _, [], h => by simp [charsLT] at h
  | a :: as, b :: bs, h => by
    simp only [charsLT] at h ⊢
    rcases Nat.lt_trichotomy a.toNat b.toNat with hab | hab | hab
    · have h1 : ¬ b.toNat < a.toNat := by omega
      simp only [h1, hab, if_false, if_true]
    · have h1 : ¬ a.toNat < b.toNat := by omega
      have h2 : ¬ b.toNat < a.toNat := by omega
      simp only [h1, h2, if_false] at h ⊢
      exact charsLT_asymm as bs h
    · have h1 : ¬ a.toNat < b.toNat := by omega
      simp only [h1, hab, if_false, if_true] at h
      simp at h

lemma charsLT_connex : ∀ (l₁ l₂ : List Char), charsLT l₁ l₂ = false →
    charsLT l₂ l₁ = false → l₁ = l₂
  | [], [], _, _ => rfl
  | [], _ :: _, h₁, _ => by simp [charsLT] at h₁
  | _ :: _, [], _, h₂ => by simp [charsLT] at h₂
  | a :: as, b :: bs, h₁, h₂ => by
    simp only [charsLT] at h₁ h₂
    rcases Nat.lt_trichotomy a.toNat b.toNat with hab | hab | hab
    · simp only [hab, if_true] at h₁
      simp at h₁
    · have h1 : ¬ a.toNat < b.toNat := by omega
      have h2 : ¬ b.toNat < a.toNat := by omega
      simp only [h1, h2, if_false] at h₁ h₂
      rw [charToNat_inj hab, charsLT_connex as bs h₁ h₂]
    · simp only [hab, if_true] at h₂
      simp at h₂

lemma pidLT_trans {a b c : String} (h₁ : pidLT a b = true)
    (h₂ : pidLT b c = true) : pidLT a c = true :=
  charsLT_trans _ _ _ h₁ h₂

lemma pidLT_asymm {a b : String} (h : pidLT a b = true) : pidLT b a = false :=
  charsLT_asymm _ _ h

lemma pidLT_irrefl (a : String) : pidLT a a = false := by
  by_cases h : pidLT a a = true
  · have := pidLT_asymm h
    rw [h] at this
    exact absurd this (by simp)
  · exact Bool.not_eq_true _ ▸ h

lemma pidLT_connex {a b : String} (h₁ : pidLT a b = false)
    (h₂ : pidLT b a = false) : a = b :=
  String.ext (charsLT_connex _ _ h₁ h₂)

lemma pidEq_iff {a b : String} : pidEq a b = true ↔ a = b := by
  simp [pidEq]

lemma pidEq_refl (a : String) : pidEq a a = true := pidEq_iff.mpr rfl

lemma pidLE_iff {a b : String} : pidLE a b = true ↔ (pidLT a b = true ∨ a = b) := by
  simp [pidLE, Bool.or_eq_true, pidEq_iff]

lemma pidLE_refl (a : String) : pidLE a a = true := pidLE_iff.mpr (Or.inr rfl)

lemma pidLE_total (a b : String) : pidLE a b = true ∨ pidLE b a = true := by
  by_cases h₁ : pidLT a b = true
  · exact Or.inl (pidLE_iff.mpr (Or.inl h₁))
  · by_cases h₂ : pidLT b a = true
    · exact Or.inr (pidLE_iff.mpr (Or.inl h₂))
    · exact Or.inl (pidLE_iff.mpr (Or.inr
        (pidLT_connex (Bool.not_eq_true _ ▸ h₁) (Bool.not_eq_true _ ▸ h₂))))

lemma pidLE_trans {a b c : String} (h₁ : pidLE a b = true)
    (h₂ : pidLE b c = true) : pidLE a c = true := by
  rcases pidLE_iff.mp h₁ with h₁ | rfl
  · rcases pidLE_iff.mp h₂ with h₂ | rfl
    · exact pidLE_iff.mpr (Or.inl (pidLT_trans h₁ h₂))
    · exact pidLE_iff.mpr (Or.inl h₁)
  · exact h₂

lemma pidLE_antisymm {a b : String} (h₁ : pidLE a b = true)
    (h₂ : pidLE b a = true) : a = b := by
  rcases pidLE_iff.mp h₁ with h₁ | rfl
  · rcases pidLE_iff.mp h₂ with h₂ | rfl
    · exact absurd h₂ (by simp [pidLT_asymm h₁])
    · rfl
  · rfl

lemma pidLT_of_pidLE_of_ne {a b : String} (h : pidLE a b = true) (hne : a ≠ b) :
    pidLT a b = true := by
  rcases pidLE_iff.mp h with h | rfl
  · exact h
  · exact absurd rfl hne

section KeyOrder

variable {κ : Type} [LinearOrder κ]

lemma keyLE_iff {a b : κ × String} :
    keyLE a b = true ↔ a.1 < b.1 ∨ (a.1 = b.1 ∧ pidLE a.2 b.2 = true) := by
  simp [keyLE, Bool.or_eq_true, Bool.and_eq_true, decide_eq_true_eq]

lemma keyLT_iff {a b : κ × String} :
    keyLT a b = true ↔ a.1 < b.1 ∨ (a.1 = b.1 ∧ pidLT a.2 b.2 = true) := by
  simp [keyLT, Bool.or_eq_true, Bool.and_eq_true, decide_eq_true_eq]

lemma keyLE_total (a b : κ × String) : keyLE a b = true ∨ keyLE b a = true := by
  rcases lt_trichotomy a.1 b.1 with h | h | h
  · exact Or.inl (keyLE_iff.mpr (Or.inl h))
  · rcases pidLE_total a.2 b.2 with hp | hp
    · exact Or.inl (keyLE_iff.mpr (Or.inr ⟨h, hp⟩))
    · exact Or.inr (keyLE_iff.mpr (Or.inr ⟨h.symm, hp⟩))
  · exact Or.inr (keyLE_iff.mpr (Or.inl h))

lemma keyLE_trans {a b c : κ × String} (h₁ : keyLE a b = true)
    (h₂ : keyLE b c = true) : keyLE a c = true := by
  rcases keyLE_iff.mp h₁ with h₁ | ⟨h₁, hp₁⟩ <;>
    rcases keyLE_iff.mp h₂ with h₂ | ⟨h₂, hp₂⟩
  · exact keyLE_iff.mpr (Or.inl (lt_trans h₁ h₂))
  · exact keyLE_iff.mpr (Or.inl (h₂ ▸ h₁))
  · exact keyLE_iff.mpr (Or.inl (h₁ ▸ h₂))
  · exact keyLE_iff.mpr (Or.inr ⟨h₁.trans h₂, pidLE_trans hp₁ hp₂⟩)

lemma keyLE_antisymm {a b : κ × String} (h₁ : keyLE a b = true)
    (h₂ : keyLE b a = true) : a = b := by
  rcases keyLE_iff.mp h₁ with h₁ | ⟨h₁, hp₁⟩ <;>
    rcases keyLE_iff.mp h₂ with h₂ | ⟨h₂, hp₂⟩
  · exact absurd h₂ (lt_asymm h₁)
  · exact absurd h₁ (h₂ ▸ lt_irrefl _)
  · exact absurd h₂ (h₁ ▸ lt_irrefl _)
  · exact Prod.ext h₁ (pidLE_antisymm hp₁ hp₂)

lemma keyLT_not_keyLE {a b : κ × String} :
    keyLT a b = true ↔ ¬ keyLE b a = true := by
  constructor
  · intro h hc
    rcases keyLT_iff.mp h with h | ⟨h, hp⟩ <;>
      rcases keyLE_iff.mp hc with hc | ⟨hc, hpc⟩
    · exact absurd hc (lt_asymm h)
    · exact absurd h (hc ▸ lt_irrefl _)
    · exact absurd hc (h ▸ lt_irrefl _)
    · have := pidLT_asymm hp
      rw [pidLE_iff] at hpc
      rcases hpc with hpc | hpc
      · rw [hpc] at this; exact absurd this (by simp)
      · rw [hpc] at hp; rw [pidLT_irrefl] at hp; exact absurd hp (by simp)
  · intro h
    rcases keyLE_total a b with hc | hc
    · rcases keyLE_iff.mp hc with hc1 | ⟨hc1, hpc⟩
      · exact keyLT_iff.mpr (Or.inl hc1)
      · rcases pidLE_iff.mp hpc with hpc1 | hpc1
        · exact keyLT_iff.mpr (Or.inr ⟨hc1, hpc1⟩)
        · refine absurd (keyLE_iff.mpr (Or.inr ⟨hc1.symm, ?_⟩)) h
          rw [hpc1]
          exact pidLE_refl _
    · exact absurd hc h

lemma keyLT_trans {a b c : κ × String} (h₁ : keyLT a b = true)
    (h₂ : keyLT b c = true) : keyLT a c = true := by
  rcases keyLT_iff.mp h₁ with h₁ | ⟨h₁, hp₁⟩ <;>
    rcases keyLT_iff.mp h₂ with h₂ | ⟨h₂, hp₂⟩
  · exact keyLT_iff.mpr (Or.inl (lt_trans h₁ h₂))
  · exact keyLT_iff.mpr (Or.inl (h₂ ▸ h₁))
  · exact keyLT_iff.mpr (Or.inl (h₁ ▸ h₂))
  · exact keyLT_iff.mpr (Or.inr ⟨h₁.trans h₂, pidLT_trans hp₁ hp₂⟩)

lemma keyLT_asymm {a b : κ × String} (h : keyLT a b = true) :
    keyLT b a = false := by
  rw [Bool.eq_false_iff]
  intro hc
  rcases keyLT_iff.mp h with h1 | ⟨h1, hp1⟩ <;>
    rcases keyLT_iff.mp hc with h2 | ⟨h2, hp2⟩
  · exact absurd h2 (lt_asymm h1)
  · exact absurd h1 (h2 ▸ lt_irrefl _)
  · exact absurd h2 (h1 ▸ lt_irrefl _)
  · have hasym := pidLT_asymm hp1
    rw [hp2] at hasym
    exact absurd hasym (by simp)

lemma keyLT_irrefl (a : κ × String) : keyLT a a = false := by
  rw [Bool.eq_false_iff]
  intro hc
  have := keyLT_asymm hc
  rw [hc] at this
  exact absurd this (by simp)

lemma keyLT_connex {a b : κ × String} (h₁ : keyLT a b = false)
    (h₂ : keyLT b a = false) : a = b := by
  have hle : keyLE a b = true := by
    by_contra hc
    have := keyLT_not_keyLE.mpr hc
    rw [h₂] at this
    exact absurd this (by simp)
  have hge : keyLE b a = true := by
    by_contra hc
    have := keyLT_not_keyLE.mpr hc
    rw [h₁] at this
    exact absurd this (by simp)
  exact keyLE_antisymm hle hge

lemma keyLT_of_keyLE_of_ne {a b : κ × String} (h : keyLE a b = true)
    (hne : a ≠ b) : keyLT a b = true := by
  rcases keyLE_iff.mp h with h | ⟨h, hp⟩
  · exact keyLT_iff.mpr (Or.inl h)
  · refine keyLT_iff.mpr (Or.inr ⟨h, ?_⟩)
    refine pidLT_of_pidLE_of_ne hp fun hps => hne (Prod.ext h hps)

end KeyOrder

/-! ## Insertion sort lemmas -/

section SortLemmas

variable {α : Type} {le : α → α → Bool}

lemma insertSorted_perm (le : α → α → Bool) (x : α) :
    ∀ l : List α, List.Perm (insertSorted le x l) (x :: l)
  | [] => List.Perm.refl _
  | y :: ys => by
    rw [insertSorted]
    split_ifs with h
    · exact List.Perm.refl _
    · exact ((insertSorted_perm le x ys).cons y).trans (List.Perm.swap x y ys)

lemma insertionSort_perm (le : α → α → Bool) :
    ∀ l : List α, List.Perm (insertionSort le l) l
  | [] => List.Perm.refl _
  | x :: xs => by
    rw [insertionSort]
    exact (insertSorted_perm le x (insertionSort le xs)).trans
      ((insertionSort_perm le xs).cons x)

lemma mem_insertSorted {le : α → α → Bool} {x y : α} {l : List α} :
    y ∈ insertSorted le x l ↔ y = x ∨ y ∈ l := by
  rw [(insertSorted_perm le x l).mem_iff, List.mem_cons]

lemma insertSorted_pairwise
    (htot : ∀ a b : α, le a b = true ∨ le b a = true)
    (htrans : ∀ a b c : α, le a b = true → le b c = true → le a c = true)
    {x : α} :
    ∀ {l : List α}, l.Pairwise (fun a b => le a b = true) →
      (insertSorted le x l).Pairwise (fun a b => le a b = true)
  | [], _ => by simp [insertSorted]
  | y :: ys, h => by
    rw [insertSorted]
    rcases List.pairwise_cons.mp h with ⟨hy, hys⟩
    split_ifs with hxy
    · refine List.pairwise_cons.mpr ⟨?_, h⟩
      intro z hz
      rcases List.mem_cons.mp hz with rfl | hz
      · exact hxy
      · exact htrans _ _ _ hxy (hy z hz)
    · refine List.pairwise_cons.mpr ⟨?_, insertSorted_pairwise htot htrans hys⟩
      intro z hz
      rcases mem_insertSorted.mp hz with rfl | hz
      · rcases htot z y with hc | hc
        · exact absurd hc hxy
        · exact hc
      · exact hy z hz

lemma insertionSort_pairwise
    (htot : ∀ a b : α, le a b = true ∨ le b a = true)
    (htrans : ∀ a b c : α, le a b = true → le b c = true → le a c = true) :
    ∀ l : List α,
      (insertionSort le l).Pairwise (fun a b => le a b = true)
  | [] => by simp [insertionSort]
  | x :: xs => by
    rw [insertionSort]
    exact insertSorted_pairwise htot htrans (insertionSort_pairwise htot htrans xs)

/-- Two sorted lists that are permutations of one another are equal, when
the order is antisymmetric on the elements involved. -/
lemma sorted_perm_eq :
    ∀ {l₁ l₂ : List α}, List.Perm l₁ l₂ →
      (∀ a ∈ l₁, ∀ b ∈ l₁, le a b = true → le b a = true → a = b) →
      l₁.Pairwise (fun a b => le a b = true) →
      l₂.Pairwise (fun a b => le a b = true) → l₁ = l₂
  | [], [], _, _, _, _ => rfl
  | [], b :: t₂, hp, _, _, _ => absurd hp.symm (by simp)
  | a :: t₁, [], hp, _, _, _ => absurd hp (by simp)
  | a :: t₁, b :: t₂, hp, hanti, h₁, h₂ => by
    rcases List.pairwise_cons.mp h₁ with ⟨ha, ht₁⟩
    rcases List.pairwise_cons.mp h₂ with ⟨hb, ht₂⟩
    have hab : a = b := by
      have haim : a ∈ b :: t₂ := hp.mem_iff.mp (List.mem_cons_self a t₁)
      rcases List.mem_cons.mp haim with rfl | hamem
      · rfl
      · have hbim : b ∈ a :: t₁ := hp.mem_iff.mpr (List.mem_cons_self b t₂)
        rcases List.mem_cons.mp hbim with rfl | hbmem
        · rfl
        · exact hanti a (List.mem_cons_self a t₁) b (List.mem_cons.mpr (Or.inr hbmem))
            (ha b hbmem) (hb a hamem)
    subst hab
    have htp : List.Perm t₁ t₂ := hp.cons_inv
    have : t₁ = t₂ := sorted_perm_eq htp
      (fun x hx y hy hxy hyx =>
        hanti x (List.mem_cons.mpr (Or.inr hx)) y (List.mem_cons.mpr (Or.inr hy)) hxy hyx)
      ht₁ ht₂
    rw [this]

end SortLemmas

/-! ## Characterization of Python `min` -/

section MinLemmas

variable {α κ : Type} {key : α → κ} {klt : κ → κ → Bool}

lemma klt_irrefl (hasymm : ∀ a b : κ, klt a b = true → klt b a = false)
    (a : κ) : klt a a = false := by
  by_cases h : klt a a = true
  · have := hasymm _ _ h
    rw [h] at this
    exact absurd this (by simp)
  · exact Bool.not_eq_true _ ▸ h

lemma foldlMin_spec
    (htrans : ∀ a b c : κ, klt a b = true → klt b c = true → klt a c = true)
    (hasymm : ∀ a b : κ, klt a b = true → klt b a = false) :
    ∀ (l : List α) (x : α),
      ∃ r, l.foldl (fun best q => if klt (key q) (key best) then q else best) x = r ∧
        (r = x ∨ klt (key r) (key x) = true) ∧ r ∈ x :: l ∧
        ∀ y ∈ l, klt (key y) (key r) = false
  | [], x => ⟨x, rfl, Or.inl rfl, List.mem_cons_self x [], by simp⟩
  | q :: l, x => by
    rw [List.foldl_cons]
    obtain ⟨r, hr, hcmp, hmem, hmin⟩ :=
      foldlMin_spec htrans hasymm l (if klt (key q) (key x) then q else x)
    refine ⟨r, hr, ?_, ?_, ?_⟩
    · by_cases hqx : klt (key q) (key x) = true
      · rw [if_pos hqx] at hcmp
        rcases hcmp with rfl | hlt
        · exact Or.inr hqx
        · exact Or.inr (htrans _ _ _ hlt hqx)
      · rw [if_neg hqx] at hcmp
        exact hcmp
    · rcases List.mem_cons.mp hmem with rfl | hmem2
      · split_ifs with hqx
        · exact List.mem_cons.mpr (Or.inr (List.mem_cons_self q l))
        · exact List.mem_cons_self x (q :: l)
      · exact List.mem_cons.mpr (Or.inr (List.mem_cons.mpr (Or.inr hmem2)))
    · intro y hy
      rcases List.mem_cons.mp hy with rfl | hy2
      · by_cases hqx : klt (key y) (key x) = true
        · rw [if_pos hqx] at hcmp
          rcases hcmp with rfl | hlt
          · exact klt_irrefl hasymm _
          · exact hasymm _ _ hlt
        · rw [if_neg hqx] at hcmp
          rcases hcmp with rfl | hlt
          · exact Bool.not_eq_true _ ▸ hqx
          · by_cases hc : klt (key y) (key r) = true
            · exact absurd (htrans _ _ _ hc hlt) hqx
            · exact Bool.not_eq_true _ ▸ hc
      · exact hmin y hy2

lemma pyMinBy_spec
    (htrans : ∀ a b c : κ, klt a b = true → klt b c = true → klt a c = true)
    (hasymm : ∀ a b : κ, klt a b = true → klt b a = false)
    {l : List α} {m : α} (h : pyMinBy key klt l = some m) :
    m ∈ l ∧ ∀ y ∈ l, klt (key y) (key m) = false := by
  cases l with
  | nil => exact absurd h (by simp [pyMinBy])
  | cons x xs =>
    rw [pyMinBy] at h
    obtain ⟨r, hr, _, hmem, hmin⟩ := foldlMin_spec htrans hasymm xs x
    rw [hr] at h
    obtain rfl : r = m := by injection h
    refine ⟨hmem, ?_⟩
    intro y hy
    rcases List.mem_cons.mp hy with rfl | hy2
    · obtain ⟨r2, hr2, hcmp2, _, _⟩ := foldlMin_spec htrans hasymm xs y
      rw [hr2] at hr
      subst hr
      rcases hcmp2 with rfl | hlt
      · exact klt_irrefl hasymm _
      · exact hasymm _ _ hlt
    · exact hmin y hy2

lemma pyMinBy_isSome {l : List α} (h : l ≠ []) :
    ∃ m, pyMinBy key klt l = some m := by
  cases l with
  | nil => exact absurd rfl h
  | cons x xs => exact ⟨_, rfl⟩

end MinLemmas

/-! ## Schedule chain lemmas -/

lemma revChained_cons {l : List Entry} {t t' : ℚ} (h : revChained l t)
    (ht : t < t') (pid : String) : revChained (⟨pid, t, t'⟩ :: l) t' :=
  ⟨rfl, ht, h⟩

lemma revChained_appendOrExtend {l : List Entry} {t e : ℚ} (h : revChained l t)
    (he : 0 < e) (pid : String) :
    revChained (appendOrExtend l pid t (t + e)) (t + e) := by
  cases l with
  | nil =>
    have ht : t = 0 := h
    exact ⟨rfl, (by linarith : t < t + e), ht⟩
  | cons last rest =>
    obtain ⟨hend, hlt, hrest⟩ := h
    rw [appendOrExtend]
    split_ifs with hcond
    · exact ⟨rfl, (by linarith : last.start_time < t + e), hrest⟩
    · exact ⟨rfl, (by linarith : t < t + e), hend, hlt, hrest⟩

lemma revChained_reverseAux :
    ∀ {l : List Entry} {t : ℚ}, revChained l t →
      ∀ {tail : List Entry} {t1 : ℚ}, chainedTo t tail t1 →
        chainedTo 0 (l.reverseAux tail) t1
  | [], t, h, tail, t1, htail => by
    rw [List.reverseAux]
    have ht : t = 0 := h
    rw [← ht]
    exact htail
  | e :: rest, t, h, tail, t1, htail => by
    obtain ⟨hend, hlt, hrest⟩ := h
    rw [List.reverseAux]
    refine revChained_reverseAux hrest ⟨rfl, hlt, ?_⟩
    rw [hend]
    exact htail

lemma revChained_chainedTo {l : List Entry} {t : ℚ} (h : revChained l t) :
    chainedTo 0 l.reverse t := by
  have : l.reverse = l.reverseAux [] := by rw [List.reverse]
  rw [this]
  exact revChained_reverseAux h rfl

lemma chainedTo_le : ∀ {l : List Entry} {t0 t1 : ℚ}, chainedTo t0 l t1 → t0 ≤ t1
  | [], _, _, h => le_of_eq h
  | e :: rest, t0, t1, h => by
    obtain ⟨hstart, hlt, hrest⟩ := h
    have := chainedTo_le hrest
    linarith

lemma chainedTo_foldl_max :
    ∀ {l : List Entry} {t0 t1 : ℚ}, chainedTo t0 l t1 → l ≠ [] →
      ∀ a : ℚ, a ≤ t1 → (l.map Entry.end_time).foldl max a = t1
  | [], _, _, _, hne, _, _ => absurd rfl hne
  | e :: rest, t0, t1, h, _, a, ha => by
    obtain ⟨hstart, hlt, hrest⟩ := h
    rw [List.map_cons, List.foldl_cons]
    cases rest with
    | nil =>
      have hend : e.end_time = t1 := hrest
      rw [List.map_nil, List.foldl_nil, hend, max_eq_right ha]
    | cons f rest2 =>
      have hle : e.end_time ≤ t1 := chainedTo_le hrest
      exact chainedTo_foldl_max hrest (by simp) _ (max_le ha hle)

lemma chainedTo_scheduleMaxEnd {l : List Entry} {t : ℚ}
    (h : chainedTo 0 l t) : scheduleMaxEnd l = t := by
  cases l with
  | nil => exact h
  | cons e rest =>
    obtain ⟨hstart, hlt, hrest⟩ := h
    rw [scheduleMaxEnd]
    cases rest with
    | nil =>
      have hend : e.end_time = t := hrest
      simpa using hend
    | cons f rest2 =>
      have hle : e.end_time ≤ t := chainedTo_le hrest
      exact chainedTo_foldl_max hrest (by simp) _ hle

/-! ## The completion-times dict computes the last matching end time -/

lemma getLast?_cons_or {α : Type} (a : α) (l : List α) :
    (a :: l).getLast? = Option.or l.getLast? (some a) := by
  rw [List.getLast?_cons]
  cases h : l.getLast? with
  | none => rfl
  | some b => rfl

lemma completion_times_foldl (pid : String) :
    ∀ (schedule : List Entry) (m : String → Option ℚ),
      (schedule.foldl
        (fun m e =>
          if pidEq e.pid "IDLE" then m
          else fun pid => if pidEq pid e.pid then some e.end_time else m pid) m)
          pid =
        Option.or (lastNonIdleEnd schedule pid) (m pid)
  | [], m => by simp [lastNonIdleEnd]
  | e :: rest, m => by
    rw [List.foldl_cons, completion_times_foldl pid rest]
    by_cases hidle : pidEq e.pid "IDLE" = true
    · rw [if_pos hidle]
      have hfilter : (lastNonIdleEnd (e :: rest) pid) = lastNonIdleEnd rest pid := by
        rw [lastNonIdleEnd, lastNonIdleEnd, List.filter_cons,
          if_neg (by simp [hidle])]
      rw [hfilter]
    · rw [if_neg hidle]
      by_cases hp : pid = e.pid
      · have hmatch : pidEq pid e.pid = true := pidEq_iff.mpr hp
        have hmatch2 : pidEq e.pid pid = true := pidEq_iff.mpr hp.symm
        have hfilter : lastNonIdleEnd (e :: rest) pid =
            Option.or (lastNonIdleEnd rest pid) (some e.end_time) := by
          rw [lastNonIdleEnd, lastNonIdleEnd, List.filter_cons,
            if_pos (by simp [hidle, hmatch2]), getLast?_cons_or]
          cases hrest : (List.filter
              (fun e => !pidEq e.pid "IDLE" && pidEq e.pid pid) rest).getLast? with
          | none => rfl
          | some b => rfl
        rw [hfilter, hmatch]
        simp only [if_true]
        rw [Option.or_assoc]
        rfl
      · have hmatch : pidEq pid e.pid = false := by
          rw [Bool.eq_false_iff]
          intro hc
          exact hp (pidEq_iff.mp hc)
        have hmatch2 : pidEq e.pid pid = false := by
          rw [Bool.eq_false_iff]
          intro hc
          exact hp (pidEq_iff.mp hc).symm
        have hfilter : (lastNonIdleEnd (e :: rest) pid) = lastNonIdleEnd rest pid := by
          rw [lastNonIdleEnd, lastNonIdleEnd, List.filter_cons,
            if_neg (by simp [hmatch2])]
        rw [hfilter, hmatch]
        simp

lemma completion_times_eq_lastNonIdleEnd (schedule : List Entry) (pid : String) :
    completion_times schedule pid = lastNonIdleEnd schedule pid := by
  rw [completion_times, completion_times_foldl pid schedule, Option.or_none]

/-! ## Literal pid comparison facts used in concrete evaluations -/

lemma pidEq_P1_IDLE : pidEq "P1" "IDLE" = false := rfl
lemma pidEq_P2_IDLE : pidEq "P2" "IDLE" = false := rfl
lemma pidEq_P1_P2 : pidEq "P1" "P2" = false := rfl
lemma pidEq_P2_P1 : pidEq "P2" "P1" = false := rfl
lemma pidEq_P1_P1 : pidEq "P1" "P1" = true := rfl
lemma pidEq_P2_P2 : pidEq "P2" "P2" = true := rfl
lemma pidLT_P1_P2 : pidLT "P1" "P2" = true := rfl
lemma pidLT_P2_P1 : pidLT "P2" "P1" = false := rfl
lemma pidLE_P1_P2 : pidLE "P1" "P2" = true := rfl

/-! ## The claims -/

/-- C2 (code bug in the source): the idle-handling path of the
preemptive algorithms faults.  On `[Process("P1", 1, 1, priority=1)]` —
earliest arrival greater than 0, forcing an idle gap — both
`sjf_preemptive` and `priority_preemptive` append the idle schedule
entry, advance the simulation time, and then fall through to
`current_process.execute(1.0)` with `current_process = None`, raising
`AttributeError` instead of continuing and returning a complete
`SchedulingResult` (the loop body lacks a `continue` after the idle
entry). -/
theorem C2_preemptive_idle_crash :
    sjf_preemptive [mkProcess "P1" 1 1 (some 1)] = .error .noneTypeExec ∧
      priority_preemptive [mkProcess "P1" 1 1 (some 1)] =
        .error .noneTypeExec :=
  ⟨rfl, rfl⟩

/-- C3, counterexample to the claim as stated: on the empty process
list, `round_robin` with quantum `0 ≤ 0` does not raise the
invalid-configuration error — the empty-input check precedes the quantum
check, so an (empty) `SchedulingResult` is produced. -/
theorem C3_counterexample :
    round_robin [] 0 = .ok ⟨[], none, "Round Robin"⟩ := rfl

/-- C3 as amended: for every NON-EMPTY process list, invoking
`round_robin` with a quantum `≤ 0` raises the invalid-configuration
error before any scheduling begins, and no `SchedulingResult` is
produced. -/
theorem C3_amended (processes : List Process) (time_quantum : ℚ)
    (hne : processes ≠ []) (hq : time_quantum ≤ 0) :
    round_robin processes time_quantum = .error .invalidQuantum := by
  rw [round_robin, if_neg (by simpa [List.isEmpty_iff] using hne), if_pos hq]

theorem C3_witness :
    [mkProcess "P1" 0 1 none] ≠ [] ∧ (0 : ℚ) ≤ 0 ∧
      round_robin [mkProcess "P1" 0 1 none] 0 = .error .invalidQuantum :=
  ⟨by simp, le_refl 0, C3_amended _ _ (by simp) (le_refl 0)⟩

/-- C8: on every non-empty input in which some process lacks a priority,
both priority algorithms raise the missing-required-attribute error (for
the first such process, in input order) before any scheduling decision —
the returned value is an error carrying no schedule, never a partial
result. -/
theorem C8_missing_priority_fail_fast (processes : List Process)
    (hne : processes ≠ []) (hmiss : ∃ p ∈ processes, p.priority = none) :
    ∃ pid, priority_non_preemptive processes = .error (.missingPriority pid) ∧
      priority_preemptive processes = .error (.missingPriority pid) := by
  have hfind : ∃ p, processes.find? (fun p => p.priority.isNone) = some p := by
    have hsome : (processes.find? (fun p => p.priority.isNone)).isSome := by
      rw [List.find?_isSome]
      obtain ⟨p, hp, hnone⟩ := hmiss
      exact ⟨p, hp, by simp [hnone]⟩
    exact Option.isSome_iff_exists.mp hsome
  obtain ⟨p, hp⟩ := hfind
  refine ⟨p.pid, ?_, ?_⟩
  · rw [priority_non_preemptive, if_neg (by simpa [List.isEmpty_iff] using hne),
      hp]
  · rw [priority_preemptive, priorityPreemptiveRun,
      if_neg (by simpa [List.isEmpty_iff] using hne), hp]
    rfl

theorem C8_witness :
    [mkProcess "P1" 0 3 none, mkProcess "P2" 1 2 (some 1)] ≠ [] ∧
      (∃ p ∈ [mkProcess "P1" 0 3 none, mkProcess "P2" 1 2 (some 1)],
        p.priority = none) ∧
      ∃ pid,
        priority_non_preemptive
            [mkProcess "P1" 0 3 none, mkProcess "P2" 1 2 (some 1)] =
          .error (.missingPriority pid) ∧
        priority_preemptive
            [mkProcess "P1" 0 3 none, mkProcess "P2" 1 2 (some 1)] =
          .error (.missingPriority pid) :=
  ⟨by simp, ⟨mkProcess "P1" 0 3 none, by simp, rfl⟩,
    C8_missing_priority_fail_fast _ (by simp)
      ⟨mkProcess "P1" 0 3 none, by simp, rfl⟩⟩

set_option maxHeartbeats 1000000 in
/-- C1, counterexample to the claim as stated: on
`[Process("P1", 0, 2), Process("P2", 1, 1)]` the recorded execution
steps of `sjf_preemptive` violate the claimed selection rule — at time
1 both processes have remaining time 1, so the `(remaining_time, pid)`
tie-break makes `P1` (the running process) the minimum, yet the
algorithm context-switches to and executes `P2`, because the code
switches to the popped heap minimum whenever its pid differs from the
running process, without including the running process in the
comparison. -/
theorem C1_counterexample :
    c1ClaimCheck [mkProcess "P1" 0 2 none, mkProcess "P2" 1 1 none] = false := by
  norm_num [c1ClaimCheck, sjfPreemptiveRun, insertionSort, insertSorted,
    preemptiveFuel, pLoop, admitLoop, mkProcess, copyProcess, Except.map,
    arrivalKeyLE, keyLE, keyLT, pidLE, pidLT_P1_P2, pidLT_P2_P1, heapTupleLE,
    Process.execute, Process.is_completed, appendOrExtend, setAdd,
    c1StepOK, specMinPid, pidEq_P1_P1, pidEq_P2_P2, pidEq_P1_P2, pidEq_P2_P1,
    pidEq_P1_IDLE, pidEq_P2_IDLE]

/-- C4: `calculate_metrics` computes each process's completion time as
the end time of the last non-idle schedule entry bearing its pid, each
turnaround time as `completion_time - arrival_time`, each waiting time
as `turnaround_time - burst_time`, and the two averages as the
2-decimal-rounded arithmetic means over the processes that completed
(0 when none completed, which `specMean` builds in); and on
`P1(0,3), P2(1,2)` with schedule `[(P1,0,3),(P2,3,5)]` it returns
`average_turnaround_time = 3.5`, `average_waiting_time = 1.0`,
`cpu_utilization = 100.0`, `total_processes = 2`, `total_time = 5`. -/
theorem C4_metrics (processes : List Process) (schedule : List Entry) :
    (∀ pid, completion_times schedule pid = lastNonIdleEnd schedule pid) ∧
    (calculate_metrics processes schedule).average_turnaround_time =
      round2 (specMean (processes.filterMap fun p =>
        (lastNonIdleEnd schedule p.pid).map fun c => c - p.arrival_time)) ∧
    (calculate_metrics processes schedule).average_waiting_time =
      round2 (specMean (processes.filterMap fun p =>
        (lastNonIdleEnd schedule p.pid).map fun c =>
          (c - p.arrival_time) - p.burst_time)) ∧
    calculate_metrics [mkProcess "P1" 0 3 none, mkProcess "P2" 1 2 none]
      [⟨"P1", 0, 3⟩, ⟨"P2", 3, 5⟩] = ⟨7/2, 1, 100, 2, 5⟩ := by
  refine ⟨completion_times_eq_lastNonIdleEnd schedule, ?_, ?_, ?_⟩
  · simp only [calculate_metrics, specMean]
    rw [List.filterMap_congr fun p _ => by
      rw [completion_times_eq_lastNonIdleEnd schedule p.pid]]
  · simp only [calculate_metrics, specMean]
    rw [List.filterMap_congr fun p _ => by
      rw [completion_times_eq_lastNonIdleEnd schedule p.pid]]
  · norm_num [calculate_metrics, mkProcess, completion_times, scheduleMaxEnd,
      round2, round_eq, List.filter_cons, List.filterMap_cons,
      pidEq_P1_P1, pidEq_P2_P2, pidEq_P1_P2, pidEq_P2_P1, pidEq_P1_IDLE,
      pidEq_P2_IDLE]

/-! ## Independence from the input `remaining_time` field (C10) -/

lemma sameSpec_copy {p q : Process} (h : sameSpec p q) :
    copyProcess p = copyProcess q := by
  obtain ⟨h1, h2, h3, h4⟩ := h
  simp [copyProcess, mkProcess, h1, h2, h3, h4]

lemma forall₂_map_copy {l₁ l₂ : List Process}
    (h : List.Forall₂ sameSpec l₁ l₂) :
    l₁.map copyProcess = l₂.map copyProcess := by
  induction h with
  | nil => rfl
  | cons hpq htail ih => simp only [List.map_cons, sameSpec_copy hpq, ih]

lemma forall₂_isEmpty {l₁ l₂ : List Process}
    (h : List.Forall₂ sameSpec l₁ l₂) : l₁.isEmpty = l₂.isEmpty := by
  cases h with
  | nil => rfl
  | cons hpq htail => rfl

lemma forall₂_filterMap {β : Type} {f : Process → Option β}
    {l₁ l₂ : List Process} (h : List.Forall₂ sameSpec l₁ l₂)
    (hf : ∀ p q, sameSpec p q → f p = f q) :
    l₁.filterMap f = l₂.filterMap f := by
  induction h with
  | nil => rfl
  | cons hpq htail ih => simp only [List.filterMap_cons, hf _ _ hpq, ih]

lemma forall₂_metrics {l₁ l₂ : List Process}
    (h : List.Forall₂ sameSpec l₁ l₂) (s : List Entry) :
    calculate_metrics l₁ s = calculate_metrics l₂ s := by
  have ht := forall₂_filterMap (f := fun p =>
      (completion_times s p.pid).map fun c => c - p.arrival_time) h
    (fun p q hs => by simp only []; rw [hs.1, hs.2.1])
  have hw := forall₂_filterMap (f := fun p =>
      (completion_times s p.pid).map fun c => c - p.arrival_time - p.burst_time) h
    (fun p q hs => by simp only []; rw [hs.1, hs.2.1, hs.2.2.1])
  simp only [calculate_metrics, ht, hw, h.length_eq]

lemma forall₂_find_priority {l₁ l₂ : List Process}
    (h : List.Forall₂ sameSpec l₁ l₂) :
    ((l₁.find? fun p => p.priority.isNone) = none ∧
      (l₂.find? fun p => p.priority.isNone) = none) ∨
    (∃ p q, (l₁.find? fun p => p.priority.isNone) = some p ∧
      (l₂.find? fun p => p.priority.isNone) = some q ∧ sameSpec p q) := by
  induction h with
  | nil => exact Or.inl ⟨rfl, rfl⟩
  | cons hpq htail ih =>
    rename_i a b t₁ t₂
    have hprio : a.priority = b.priority := hpq.2.2.2
    by_cases hn : a.priority.isNone = true
    · have hn2 : b.priority.isNone = true := hprio ▸ hn
      refine Or.inr ⟨a, b, ?_, ?_, hpq⟩
      · simp [List.find?, hn]
      · simp [List.find?, hn2]
    · have hn1 : a.priority.isNone = false := Bool.not_eq_true _ ▸ hn
      have hn2 : b.priority.isNone = false := hprio ▸ hn1
      have e1 : (a :: t₁).find? (fun p => p.priority.isNone) =
          t₁.find? fun p => p.priority.isNone := by simp [List.find?, hn1]
      have e2 : (b :: t₂).find? (fun p => p.priority.isNone) =
          t₂.find? fun p => p.priority.isNone := by simp [List.find?, hn2]
      rw [e1, e2]
      exact ih

lemma sameSpec_arrivalKeyLE {p₁ p₂ q₁ q₂ : Process} (h₁ : sameSpec p₁ p₂)
    (h₂ : sameSpec q₁ q₂) : arrivalKeyLE p₁ q₁ = arrivalKeyLE p₂ q₂ := by
  obtain ⟨h1, h2, _, _⟩ := h₁
  obtain ⟨h3, h4, _, _⟩ := h₂
  simp only [arrivalKeyLE, h1, h2, h3, h4]

lemma forall₂_insertSorted {x₁ x₂ : Process} {l₁ l₂ : List Process}
    (hx : sameSpec x₁ x₂) (h : List.Forall₂ sameSpec l₁ l₂) :
    List.Forall₂ sameSpec (insertSorted arrivalKeyLE x₁ l₁)
      (insertSorted arrivalKeyLE x₂ l₂) := by
  induction h with
  | nil => exact List.Forall₂.cons hx List.Forall₂.nil
  | cons hpq htail ih =>
    rename_i a b t₁ t₂
    rw [insertSorted, insertSorted, sameSpec_arrivalKeyLE hx hpq]
    by_cases hc : arrivalKeyLE x₂ b = true
    · rw [if_pos hc, if_pos hc]
      exact List.Forall₂.cons hx (List.Forall₂.cons hpq htail)
    · rw [if_neg hc, if_neg hc]
      exact List.Forall₂.cons hpq ih

lemma forall₂_insertionSort {l₁ l₂ : List Process}
    (h : List.Forall₂ sameSpec l₁ l₂) :
    List.Forall₂ sameSpec (insertionSort arrivalKeyLE l₁)
      (insertionSort arrivalKeyLE l₂) := by
  induction h with
  | nil => exact List.Forall₂.nil
  | cons hpq htail ih =>
    rw [insertionSort, insertionSort]
    exact forall₂_insertSorted hpq ih

lemma forall₂_fcfsLoop {l₁ l₂ : List Process}
    (h : List.Forall₂ sameSpec l₁ l₂) :
    ∀ (t : ℚ) (sched : List Entry), fcfsLoop l₁ t sched = fcfsLoop l₂ t sched := by
  induction h with
  | nil => intro t sched; rfl
  | cons hpq htail ih =>
    intro t sched
    obtain ⟨h1, h2, h3, _⟩ := hpq
    rw [fcfsLoop, fcfsLoop]
    simp only [h1, h2, h3]
    exact ih _ _

lemma exceptMap_congr {ε α β : Type} {f g : α → β} {x : Except ε α}
    (h : ∀ a, f a = g a) : x.map f = x.map g := by
  cases x with
  | error e => rfl
  | ok a => simp only [Except.map, h a]

/-- C10: two input lists that agree on every process's `pid`,
`arrival_time`, `burst_time` and `priority` but may differ in
`remaining_time` produce identical results under all six algorithms:
every algorithm re-initializes each working copy's `remaining_time` to
`burst_time` (and FCFS and the metrics reducer read only
`pid`/`arrival_time`/`burst_time`). -/
theorem C10_remaining_time_independent (l₁ l₂ : List Process)
    (time_quantum : ℚ) (h : List.Forall₂ sameSpec l₁ l₂) :
    fcfs_scheduling l₁ = fcfs_scheduling l₂ ∧
    sjf_non_preemptive l₁ = sjf_non_preemptive l₂ ∧
    sjf_preemptive l₁ = sjf_preemptive l₂ ∧
    priority_non_preemptive l₁ = priority_non_preemptive l₂ ∧
    priority_preemptive l₁ = priority_preemptive l₂ ∧
    round_robin l₁ time_quantum = round_robin l₂ time_quantum := by
  have hemp := forall₂_isEmpty h
  have hcopy := forall₂_map_copy h
  refine ⟨?_, ?_, ?_, ?_, ?_, ?_⟩
  · have hs := forall₂_fcfsLoop (forall₂_insertionSort h) 0 []
    simp only [fcfs_scheduling, hemp, hs, forall₂_metrics h]
  · simp only [sjf_non_preemptive, hemp, hcopy, forall₂_metrics h]
  · simp only [sjf_preemptive, sjfPreemptiveRun, hemp, hcopy,
      forall₂_metrics h]
  · rcases forall₂_find_priority h with ⟨hf₁, hf₂⟩ | ⟨p, q, hf₁, hf₂, hpq⟩
    · simp only [priority_non_preemptive, hemp, hf₁, hf₂, hcopy,
        forall₂_metrics h]
    · simp only [priority_non_preemptive, hemp, hf₁, hf₂, hpq.1]
  · rcases forall₂_find_priority h with ⟨hf₁, hf₂⟩ | ⟨p, q, hf₁, hf₂, hpq⟩
    · simp only [priority_preemptive, priorityPreemptiveRun, hemp, hf₁, hf₂,
        hcopy, forall₂_metrics h]
    · simp only [priority_preemptive, priorityPreemptiveRun, hemp, hf₁, hf₂,
        hpq.1]
  · simp only [round_robin, hemp, hcopy, forall₂_metrics h]

theorem C10_witness :
    List.Forall₂ sameSpec [⟨"P1", 0, 2, none, 2⟩] [⟨"P1", 0, 2, none, 99⟩] ∧
      (fcfs_scheduling [⟨"P1", 0, 2, none, 2⟩] =
        fcfs_scheduling [⟨"P1", 0, 2, none, 99⟩] ∧
      sjf_non_preemptive [⟨"P1", 0, 2, none, 2⟩] =
        sjf_non_preemptive [⟨"P1", 0, 2, none, 99⟩] ∧
      sjf_preemptive [⟨"P1", 0, 2, none, 2⟩] =
        sjf_preemptive [⟨"P1", 0, 2, none, 99⟩] ∧
      priority_non_preemptive [⟨"P1", 0, 2, none, 2⟩] =
        priority_non_preemptive [⟨"P1", 0, 2, none, 99⟩] ∧
      priority_preemptive [⟨"P1", 0, 2, none, 2⟩] =
        priority_preemptive [⟨"P1", 0, 2, none, 99⟩] ∧
      round_robin [⟨"P1", 0, 2, none, 2⟩] 1 =
        round_robin [⟨"P1", 0, 2, none, 99⟩] 1) :=
  ⟨List.Forall₂.cons ⟨rfl, rfl, rfl, rfl⟩ List.Forall₂.nil,
    C10_remaining_time_independent _ _ 1
      (List.Forall₂.cons ⟨rfl, rfl, rfl, rfl⟩ List.Forall₂.nil)⟩

/-! ## Chronology invariants of the scheduling loops (C6) -/

lemma fcfsLoop_chained :
    ∀ (l : List Process) (t : ℚ) (sched : List Entry),
      (∀ p ∈ l, 0 < p.burst_time) → revChained sched t →
      ∃ s' t', fcfsLoop l t sched = s'.reverse ∧ revChained s' t'
  | [], t, sched, _, hrev => ⟨sched, t, rfl, hrev⟩
  | p :: rest, t, sched, hb, hrev => by
    have hbp : 0 < p.burst_time := hb p (List.mem_cons_self p rest)
    have hbrest : ∀ q ∈ rest, 0 < q.burst_time := fun q hq =>
      hb q (List.mem_cons.mpr (Or.inr hq))
    rw [fcfsLoop]
    by_cases hidle : t < p.arrival_time
    · simp only [if_pos hidle]
      exact fcfsLoop_chained rest _ _ hbrest
        (revChained_cons (revChained_cons hrev hidle _) (by linarith) _)
    · simp only [if_neg hidle]
      exact fcfsLoop_chained rest _ _ hbrest
        (revChained_cons hrev (by linarith) _)

lemma qlt_trans (a b c : ℚ) (h₁ : decide (a < b) = true)
    (h₂ : decide (b < c) = true) : decide (a < c) = true := by
  rw [decide_eq_true_eq] at h₁ h₂ ⊢
  exact lt_trans h₁ h₂

lemma qlt_asymm (a b : ℚ) (h : decide (a < b) = true) :
    decide (b < a) = false := by
  rw [decide_eq_true_eq] at h
  simpa using lt_asymm h

lemma npLoop_chained {κ : Type} [LinearOrder κ] (key : Process → κ × String)
    (copies : List Process) (hb : ∀ p ∈ copies, 0 < p.burst_time) :
    ∀ (fuel : Nat) (completed : List String) (t : ℚ) (sched : List Entry),
      revChained sched t →
      ∀ out, npLoop key copies fuel completed t sched = .ok out →
        ∃ tf, chainedTo 0 out tf := by
  intro fuel
  induction fuel with
  | zero =>
    intro completed t sched _ out hout
    exact absurd hout (by simp [npLoop])
  | succ n ih =>
    intro completed t sched hrev out hout
    simp only [npLoop] at hout
    split_ifs at hout with hcount hempty
    · -- no available process: idle skip
      cases hmin : pyMinBy (fun p => p.arrival_time) (fun a b => decide (a < b))
          (copies.filter fun p => !(completed.any fun x => pidEq x p.pid)) with
      | none => rw [hmin] at hout; exact absurd hout (by simp)
      | some next =>
        rw [hmin] at hout
        obtain ⟨hmem, _⟩ := pyMinBy_spec qlt_trans qlt_asymm hmin
        have hinc : (completed.any fun x => pidEq x next.pid) = false :=
          (List.mem_filter.mp hmem).2 |> fun hx => by simpa using hx
        have harr : t < next.arrival_time := by
          have hnil := List.isEmpty_iff.mp hempty
          have := List.filter_eq_nil_iff.mp hnil next
            (List.mem_filter.mp hmem).1
          simp only [Bool.and_eq_true, Bool.not_eq_true] at this
          by_contra hc
          push_neg at hc
          exact this ⟨by simpa using hinc, by simpa using hc⟩
        exact ih completed next.arrival_time _ (revChained_cons hrev harr _)
          out hout
    · -- run the selected process to completion
      cases hmin : pyMinBy key keyLT
          (copies.filter fun p =>
            !(completed.any fun x => pidEq x p.pid) &&
              decide (p.arrival_time ≤ t)) with
      | none => rw [hmin] at hout; exact absurd hout (by simp)
      | some selected =>
        rw [hmin] at hout
        obtain ⟨hmem, _⟩ := pyMinBy_spec
          (fun a b c h₁ h₂ => @keyLT_trans κ _ a b c h₁ h₂)
          (fun a b h => @keyLT_asymm κ _ a b h) hmin
        have hbs : 0 < selected.burst_time :=
          hb selected (List.mem_filter.mp hmem).1
        exact ih _ _ _ (revChained_cons hrev (by linarith) _) out hout
    · -- loop condition false: return the accumulated schedule
      obtain rfl : sched.reverse = out := by injection hout
      exact ⟨t, revChained_chainedTo hrev⟩

lemma admitLoop_mem {κ : Type} [LinearOrder κ] (hkey : Process → κ) :
    ∀ (pending : List Process) (t : ℚ) (ready : List (κ × String × Process)),
      (∀ p ∈ (admitLoop hkey pending t ready).1, p ∈ pending) ∧
      (∀ x ∈ (admitLoop hkey pending t ready).2,
        x ∈ ready ∨ ∃ p ∈ pending, x = (hkey p, p.pid, p))
  | [], t, ready =>
    ⟨fun p hp => by simp [admitLoop] at hp,
      fun x hx => Or.inl (by simpa [admitLoop] using hx)⟩
  | p :: rest, t, ready => by
    simp only [admitLoop]
    by_cases h : p.arrival_time ≤ t
    · simp only [if_pos h]
      obtain ⟨h1, h2⟩ := admitLoop_mem hkey rest t
        (insertSorted heapTupleLE (hkey p, p.pid, p) ready)
      refine ⟨fun q hq => List.mem_cons.mpr (Or.inr (h1 q hq)), fun x hx => ?_⟩
      rcases h2 x hx with hx2 | ⟨q, hq, hxq⟩
      · rcases mem_insertSorted.mp hx2 with rfl | hx3
        · exact Or.inr ⟨p, List.mem_cons_self p rest, rfl⟩
        · exact Or.inl hx3
      · exact Or.inr ⟨q, List.mem_cons.mpr (Or.inr hq), hxq⟩
    · simp only [if_neg h]
      exact ⟨fun q hq => hq, fun x hx => Or.inl hx⟩

lemma pLoop_chained {κ : Type} [LinearOrder κ] (hkey : Process → κ) (n : Nat) :
    ∀ (fuel : Nat) (pending : List Process)
      (ready : List (κ × String × Process)) (current : Option Process)
      (completed : List String) (t : ℚ) (sched : List Entry)
      (steps : List StepRec),
      (∀ p ∈ pending, 0 < p.remaining_time) →
      (∀ x ∈ ready, 0 < x.2.2.remaining_time) →
      (∀ c, current = some c → 0 < c.remaining_time) →
      revChained sched t →
      ∀ out, pLoop hkey n fuel pending ready current completed t sched steps =
        .ok out → ∃ tf, chainedTo 0 out.1 tf := by
  intro fuel
  induction fuel with
  | zero =>
    intro pending ready current completed t sched steps _ _ _ _ out hout
    exact absurd hout (by simp [pLoop])
  | succ m ih =>
    intro pending ready current completed t sched steps hpend hready hcur hrev
      out hout
    simp only [pLoop, Process.execute] at hout
    split_ifs at hout with hcount
    · rcases hadm : admitLoop hkey pending t ready with ⟨pending1, ready1⟩
      have hAL := admitLoop_mem hkey pending t ready
      rw [hadm] at hAL
      obtain ⟨hALp, hALr⟩ := hAL
      have hpend1 : ∀ p ∈ pending1, 0 < p.remaining_time :=
        fun p hp => hpend p (hALp p hp)
      have hready1 : ∀ x ∈ ready1, 0 < x.2.2.remaining_time := by
        intro x hx
        rcases hALr x hx with hx1 | ⟨p, hp, rfl⟩
        · exact hready x hx1
        · exact hpend p hp
      simp only [hadm] at hout
      have execStep : ∀ (c : Process) (ready' : List (κ × String × Process))
          (steps1 : List StepRec), 0 < c.remaining_time →
          (∀ x ∈ ready', 0 < x.2.2.remaining_time) →
          (if ({ c with remaining_time :=
                c.remaining_time - min 1 c.remaining_time } : Process).is_completed
            then pLoop hkey n m pending1 ready' none (setAdd completed c.pid)
              (t + min 1 c.remaining_time)
              (appendOrExtend sched c.pid t (t + min 1 c.remaining_time)) steps1
            else pLoop hkey n m pending1 ready'
              (some { c with remaining_time :=
                c.remaining_time - min 1 c.remaining_time })
              completed (t + min 1 c.remaining_time)
              (appendOrExtend sched c.pid t (t + min 1 c.remaining_time))
              steps1) = .ok out →
          ∃ tf, chainedTo 0 out.1 tf := by
        intro c ready' steps1 hc hready' hx
        have he : 0 < min 1 c.remaining_time := lt_min one_pos hc
        have hsched1 := revChained_appendOrExtend hrev he c.pid
        split_ifs at hx with hdone
        · exact ih pending1 ready' none (setAdd completed c.pid) _ _ steps1
            hpend1 hready' (fun d hd => absurd hd (by simp)) hsched1 out hx
        · refine ih pending1 ready' _ completed _ _ steps1 hpend1 hready' ?_
            hsched1 out hx
          intro d hd
          injection hd with hd
          subst hd
          simp only [Process.is_completed, decide_eq_true_eq] at hdone
          push_neg at hdone
          exact hdone
      cases ready1 with
      | nil =>
        cases current with
        | some c =>
          exact execStep c [] _ (hcur c rfl) (by simp) hout
        | none =>
          cases pending1 with
          | cons p rest => exact absurd hout (by simp)
          | nil =>
            injection hout with hout2
            subst hout2
            exact ⟨t, revChained_chainedTo hrev⟩
      | cons x ready2 =>
        have hready2 : ∀ y ∈ ready2, 0 < y.2.2.remaining_time :=
          fun y hy => hready1 y (List.mem_cons.mpr (Or.inr hy))
        have hxpos : 0 < x.2.2.remaining_time :=
          hready1 x (List.mem_cons_self x ready2)
        cases current with
        | none => exact execStep x.2.2 ready2 _ hxpos hready2 hout
        | some c =>
          by_cases hpid : pidEq x.2.2.pid c.pid = true
          · simp only [if_pos hpid] at hout
            exact execStep c ready2 _ (hcur c rfl) hready2 hout
          · simp only [if_neg hpid] at hout
            by_cases hic : c.is_completed = true
            · simp only [if_pos hic] at hout
              exact execStep x.2.2 ready2 _ hxpos hready2 hout
            · simp only [if_neg hic] at hout
              refine execStep x.2.2 _ _ hxpos ?_ hout
              intro y hy
              rcases mem_insertSorted.mp hy with rfl | hy2
              · exact hcur c rfl
              · exact hready2 y hy2
    · injection hout with hout2
      subst hout2
      exact ⟨t, revChained_chainedTo hrev⟩

lemma rrAdmit_spec :
    ∀ (pending : List Process) (t : ℚ) (queue : List Process),
      (∀ p ∈ (rrAdmit pending t queue).2, p ∈ queue ∨ p ∈ pending) ∧
      (∀ p ∈ (rrAdmit pending t queue).1, p ∈ pending) ∧
      (pending.Pairwise (fun p q => p.arrival_time ≤ q.arrival_time) →
        (rrAdmit pending t queue).1.Pairwise
          (fun p q => p.arrival_time ≤ q.arrival_time) ∧
        ∀ p ∈ (rrAdmit pending t queue).1, t < p.arrival_time)
  | [], t, queue => by
    simp only [rrAdmit]
    exact ⟨fun p hp => Or.inl hp, fun p hp => by simp at hp,
      fun _ => ⟨List.Pairwise.nil, fun p hp => by simp at hp⟩⟩
  | p :: rest, t, queue => by
    simp only [rrAdmit]
    by_cases h : p.arrival_time ≤ t
    · simp only [if_pos h]
      obtain ⟨h1, h2, h3⟩ := rrAdmit_spec rest t (queue ++ [p])
      refine ⟨fun q hq => ?_, fun q hq => List.mem_cons.mpr (Or.inr (h2 q hq)),
        fun hpw => ?_⟩
      · rcases h1 q hq with hq1 | hq2
        · rcases List.mem_append.mp hq1 with hq3 | hq4
          · exact Or.inl hq3
          · exact Or.inr (List.mem_cons.mpr (Or.inl (List.mem_singleton.mp hq4)))
        · exact Or.inr (List.mem_cons.mpr (Or.inr hq2))
      · exact h3 (List.pairwise_cons.mp hpw).2
    · simp only [if_neg h]
      refine ⟨fun q hq => Or.inl hq, fun q hq => hq, fun hpw => ⟨hpw, ?_⟩⟩
      intro q hq
      rcases List.mem_cons.mp hq with rfl | hq2
      · exact not_le.mp h
      · have h1 := (List.pairwise_cons.mp hpw).1 q hq2
        have hpt : t < p.arrival_time := not_le.mp h
        linarith

lemma rrLoop_chained (n : Nat) (tq : ℚ) (htq : 0 < tq) :
    ∀ (fuel : Nat) (pending queue : List Process) (completed : List String)
      (t : ℚ) (sched : List Entry),
      (∀ p ∈ pending, 0 < p.remaining_time) →
      (∀ p ∈ queue, 0 < p.remaining_time) →
      pending.Pairwise (fun p q => p.arrival_time ≤ q.arrival_time) →
      (∀ p ∈ pending, t < p.arrival_time) →
      revChained sched t →
      ∀ out, rrLoop n tq fuel pending queue completed t sched = .ok out →
        ∃ tf, chainedTo 0 out tf := by
  intro fuel
  induction fuel with
  | zero =>
    intro pending queue completed t sched _ _ _ _ _ out hout
    exact absurd hout (by simp [rrLoop])
  | succ m ih =>
    intro pending queue completed t sched hpend hqueue hpw hbound hrev out hout
    simp only [rrLoop, Process.execute] at hout
    split_ifs at hout with hcount
    · have execStep : ∀ (pending1 : List Process) (c : Process)
          (queue2 : List Process) (t1 : ℚ) (sched1 : List Entry),
          0 < c.remaining_time →
          (∀ p ∈ pending1, 0 < p.remaining_time) →
          (∀ p ∈ queue2, 0 < p.remaining_time) →
          pending1.Pairwise (fun p q => p.arrival_time ≤ q.arrival_time) →
          revChained sched1 t1 →
          ((match rrAdmit pending1 (t1 + min tq c.remaining_time) queue2 with
            | (pending2, queue3) =>
              if ({ c with remaining_time :=
                    c.remaining_time - min tq c.remaining_time } :
                  Process).is_completed then
                rrLoop n tq m pending2 queue3 (setAdd completed c.pid)
                  (t1 + min tq c.remaining_time)
                  (appendOrExtend sched1 c.pid t1 (t1 + min tq c.remaining_time))
              else
                rrLoop n tq m pending2
                  (queue3 ++ [{ c with remaining_time :=
                    c.remaining_time - min tq c.remaining_time }]) completed
                  (t1 + min tq c.remaining_time)
                  (appendOrExtend sched1 c.pid t1
                    (t1 + min tq c.remaining_time))) = .ok out) →
          ∃ tf, chainedTo 0 out tf := by
        intro pending1 c queue2 t1 sched1 hc hpend1 hqueue2 hpw1 hrev1 hx
        have he : 0 < min tq c.remaining_time := lt_min htq hc
        rcases hadm2 : rrAdmit pending1 (t1 + min tq c.remaining_time) queue2
          with ⟨pending2, queue3⟩
        have hAR := rrAdmit_spec pending1 (t1 + min tq c.remaining_time) queue2
        rw [hadm2] at hAR
        obtain ⟨hARq, hARp, hARs⟩ := hAR
        obtain ⟨hpw2, hbound2⟩ := hARs hpw1
        have hpend2 : ∀ p ∈ pending2, 0 < p.remaining_time :=
          fun p hp => hpend1 p (hARp p hp)
        have hqueue3 : ∀ p ∈ queue3, 0 < p.remaining_time := by
          intro p hp
          rcases hARq p hp with hp1 | hp2
          · exact hqueue2 p hp1
          · exact hpend1 p hp2
        have hsched2 := revChained_appendOrExtend hrev1 he c.pid
        simp only [hadm2] at hx
        split_ifs at hx with hdone
        · exact ih pending2 queue3 (setAdd completed c.pid) _ _ hpend2 hqueue3
            hpw2 hbound2 hsched2 out hx
        · refine ih pending2 _ completed _ _ hpend2 ?_ hpw2 hbound2 hsched2
            out hx
          intro p hp
          rcases List.mem_append.mp hp with hp1 | hp2
          · exact hqueue3 p hp1
          · rw [List.mem_singleton.mp hp2]
            simp only [Process.is_completed, decide_eq_true_eq] at hdone
            push_neg at hdone
            exact hdone
      cases queue with
      | cons c queue2 =>
        exact execStep pending c queue2 t sched
          (hqueue c (List.mem_cons_self c queue2))
          hpend (fun p hp => hqueue p (List.mem_cons.mpr (Or.inr hp))) hpw hrev
          hout
      | nil =>
        cases pending with
        | nil =>
          injection hout with h2
          subst h2
          exact ⟨t, revChained_chainedTo hrev⟩
        | cons p rest =>
          rcases hadm : rrAdmit (p :: rest) p.arrival_time []
            with ⟨pending1, queue1⟩
          have hAR := rrAdmit_spec (p :: rest) p.arrival_time []
          rw [hadm] at hAR
          obtain ⟨hARq, hARp, hARs⟩ := hAR
          obtain ⟨hpw1, hbound1⟩ := hARs hpw
          have harr : t < p.arrival_time :=
            hbound p (List.mem_cons_self p rest)
          have hrev1 : revChained (Entry.mk "IDLE" t p.arrival_time :: sched)
              p.arrival_time := revChained_cons hrev harr _
          have hpend1 : ∀ q ∈ pending1, 0 < q.remaining_time :=
            fun q hq => hpend q (hARp q hq)
          have hqueue1 : ∀ q ∈ queue1, 0 < q.remaining_time := by
            intro q hq
            rcases hARq q hq with hq1 | hq2
            · exact absurd hq1 (by simp)
            · exact hpend q hq2
          simp only [hadm] at hout
          cases queue1 with
          | nil => exact absurd hout (by simp)
          | cons c queue2 =>
            exact execStep pending1 c queue2 p.arrival_time _
              (hqueue1 c (List.mem_cons_self c queue2)) hpend1
              (fun q hq => hqueue1 q (List.mem_cons.mpr (Or.inr hq))) hpw1
              hrev1 hout
    · injection hout with h2
      subst h2
      exact ⟨t, revChained_chainedTo hrev⟩

lemma exceptMap_ok {ε α β : Type} {f : α → β} {x : Except ε α} {r : β}
    (h : x.map f = .ok r) : ∃ a, x = .ok a ∧ r = f a := by
  cases x with
  | error e => exact absurd h (by simp [Except.map])
  | ok a =>
    refine ⟨a, rfl, ?_⟩
    injection h with h2
    exact h2.symm

lemma copies_remaining_pos {ps : List Process}
    (hb : ∀ p ∈ ps, 0 < p.burst_time) :
    ∀ p ∈ ps.map copyProcess, 0 < p.remaining_time := by
  intro p hp
  obtain ⟨q, hq, rfl⟩ := List.mem_map.mp hp
  exact hb q hq

lemma copies_burst_pos {ps : List Process}
    (hb : ∀ p ∈ ps, 0 < p.burst_time) :
    ∀ p ∈ ps.map copyProcess, 0 < p.burst_time := by
  intro p hp
  obtain ⟨q, hq, rfl⟩ := List.mem_map.mp hp
  exact hb q hq

lemma sorted_mem {l : List Process} {p : Process}
    (hp : p ∈ insertionSort arrivalKeyLE l) : p ∈ l :=
  (insertionSort_perm arrivalKeyLE l).mem_iff.mp hp

lemma arrivalKeyLE_total (p q : Process) :
    arrivalKeyLE p q = true ∨ arrivalKeyLE q p = true :=
  keyLE_total _ _

lemma arrivalKeyLE_trans (p q r : Process) (h₁ : arrivalKeyLE p q = true)
    (h₂ : arrivalKeyLE q r = true) : arrivalKeyLE p r = true :=
  keyLE_trans h₁ h₂

lemma sortedByArrival (l : List Process) :
    (insertionSort arrivalKeyLE l).Pairwise
      (fun p q => p.arrival_time ≤ q.arrival_time) := by
  refine (insertionSort_pairwise arrivalKeyLE_total arrivalKeyLE_trans l).imp ?_
  intro p q h
  rcases keyLE_iff.mp h with h1 | ⟨h1, _⟩
  · exact le_of_lt h1
  · exact le_of_eq h1

/-- C6: for every valid input (unique pids, non-negative arrivals,
positive bursts, positive quantum), whenever any of the six algorithms
returns a `SchedulingResult`, its schedule is chronological: every
entry has `start_time < end_time`, consecutive entries meet exactly
(`end_time` of entry *i* equals `start_time` of entry *i+1*, so entries
are sorted and non-overlapping), and the spans cover `[0, total_time]`
exactly, gaps being represented only by explicit idle entries
(`chainedTo 0 schedule (scheduleMaxEnd schedule)`). -/
theorem C6_chronological (processes : List Process) (time_quantum : ℚ)
    (hnodup : (processes.map Process.pid).Nodup)
    (harr : ∀ p ∈ processes, 0 ≤ p.arrival_time)
    (hburst : ∀ p ∈ processes, 0 < p.burst_time)
    (hq : 0 < time_quantum) :
    chainedTo 0 (fcfs_scheduling processes).schedule
      (scheduleMaxEnd (fcfs_scheduling processes).schedule) ∧
    (∀ r, sjf_non_preemptive processes = .ok r →
      chainedTo 0 r.schedule (scheduleMaxEnd r.schedule)) ∧
    (∀ r, priority_non_preemptive processes = .ok r →
      chainedTo 0 r.schedule (scheduleMaxEnd r.schedule)) ∧
    (∀ r, sjf_preemptive processes = .ok r →
      chainedTo 0 r.schedule (scheduleMaxEnd r.schedule)) ∧
    (∀ r, priority_preemptive processes = .ok r →
      chainedTo 0 r.schedule (scheduleMaxEnd r.schedule)) ∧
    (∀ r, round_robin processes time_quantum = .ok r →
      chainedTo 0 r.schedule (scheduleMaxEnd r.schedule)) := by
  refine ⟨?_, ?_, ?_, ?_, ?_, ?_⟩
  · rw [fcfs_scheduling]
    by_cases he : processes.isEmpty = true
    · rw [if_pos he]
      exact rfl
    · rw [if_neg he]
      obtain ⟨s', t', hs, hrev⟩ :=
        fcfsLoop_chained (insertionSort arrivalKeyLE processes) 0 []
          (fun p hp => hburst p (sorted_mem hp)) rfl
      show chainedTo 0 (fcfsLoop (insertionSort arrivalKeyLE processes) 0 [])
        (scheduleMaxEnd (fcfsLoop (insertionSort arrivalKeyLE processes) 0 []))
      rw [hs]
      have hch := revChained_chainedTo hrev
      rw [chainedTo_scheduleMaxEnd hch]
      exact hch
  · intro r hr
    rw [sjf_non_preemptive] at hr
    by_cases he : processes.isEmpty = true
    · rw [if_pos he] at hr
      injection hr with hr2
      subst hr2
      exact rfl
    · rw [if_neg he] at hr
      obtain ⟨s, hs, rfl⟩ := exceptMap_ok hr
      obtain ⟨tf, hch⟩ := npLoop_chained _ (processes.map copyProcess)
        (copies_burst_pos hburst) _ [] 0 [] rfl s hs
      show chainedTo 0 s (scheduleMaxEnd s)
      rw [chainedTo_scheduleMaxEnd hch]
      exact hch
  · intro r hr
    rw [priority_non_preemptive] at hr
    by_cases he : processes.isEmpty = true
    · rw [if_pos he] at hr
      injection hr with hr2
      subst hr2
      exact rfl
    · rw [if_neg he] at hr
      cases hf : processes.find? (fun p => p.priority.isNone) with
      | some p =>
        rw [hf] at hr
        exact absurd hr (by simp)
      | none =>
        rw [hf] at hr
        obtain ⟨s, hs, rfl⟩ := exceptMap_ok hr
        obtain ⟨tf, hch⟩ := npLoop_chained _ (processes.map copyProcess)
          (copies_burst_pos hburst) _ [] 0 [] rfl s hs
        show chainedTo 0 s (scheduleMaxEnd s)
        rw [chainedTo_scheduleMaxEnd hch]
        exact hch
  · intro r hr
    rw [sjf_preemptive, sjfPreemptiveRun] at hr
    by_cases he : processes.isEmpty = true
    · rw [if_pos he] at hr
      injection hr with hr2
      subst hr2
      exact rfl
    · rw [if_neg he] at hr
      obtain ⟨a, ha, rfl⟩ := exceptMap_ok hr
      obtain ⟨b, hb2, rfl⟩ := exceptMap_ok ha
      obtain ⟨tf, hch⟩ := pLoop_chained (fun p => p.remaining_time) _ _ _ [] none
        [] 0 [] []
        (fun p hp => copies_remaining_pos hburst p (sorted_mem hp))
        (fun x hx => absurd hx (by simp))
        (fun c hc => absurd hc (by simp)) rfl b hb2
      show chainedTo 0 b.1 (scheduleMaxEnd b.1)
      rw [chainedTo_scheduleMaxEnd hch]
      exact hch
  · intro r hr
    rw [priority_preemptive, priorityPreemptiveRun] at hr
    by_cases he : processes.isEmpty = true
    · rw [if_pos he] at hr
      injection hr with hr2
      subst hr2
      exact rfl
    · rw [if_neg he] at hr
      cases hf : processes.find? (fun p => p.priority.isNone) with
      | some p =>
        rw [hf] at hr
        exact absurd hr (by simp [Except.map])
      | none =>
        rw [hf] at hr
        obtain ⟨a, ha, rfl⟩ := exceptMap_ok hr
        obtain ⟨b, hb2, rfl⟩ := exceptMap_ok ha
        obtain ⟨tf, hch⟩ := pLoop_chained (fun p => p.priority.getD 0) _ _ _ []
          none [] 0 [] []
          (fun p hp => copies_remaining_pos hburst p (sorted_mem hp))
          (fun x hx => absurd hx (by simp))
          (fun c hc => absurd hc (by simp)) rfl b hb2
        show chainedTo 0 b.1 (scheduleMaxEnd b.1)
        rw [chainedTo_scheduleMaxEnd hch]
        exact hch
  · intro r hr
    rw [round_robin] at hr
    by_cases he : processes.isEmpty = true
    · rw [if_pos he] at hr
      injection hr with hr2
      subst hr2
      exact rfl
    · rw [if_neg he, if_neg (not_le.mpr hq)] at hr
      rcases hadm : rrAdmit
          (insertionSort arrivalKeyLE (processes.map copyProcess)) 0 []
        with ⟨pending, queue⟩
      have hAR := rrAdmit_spec
        (insertionSort arrivalKeyLE (processes.map copyProcess)) 0 []
      rw [hadm] at hAR
      obtain ⟨hARq, hARp, hARs⟩ := hAR
      obtain ⟨hpw, hbound⟩ := hARs (sortedByArrival _)
      simp only [hadm] at hr
      obtain ⟨s, hs, rfl⟩ := exceptMap_ok hr
      obtain ⟨tf, hch⟩ := rrLoop_chained _ _ hq _ pending queue [] 0 []
        (fun p hp => copies_remaining_pos hburst p
          (sorted_mem (hARp p hp)))
        (fun p hp => by
          rcases hARq p hp with hp1 | hp2
          · exact absurd hp1 (by simp)
          · exact copies_remaining_pos hburst p (sorted_mem hp2))
        hpw hbound rfl s hs
      show chainedTo 0 s (scheduleMaxEnd s)
      rw [chainedTo_scheduleMaxEnd hch]
      exact hch

theorem C6_witness :
    ([mkProcess "P1" 0 2 (some 1)].map Process.pid).Nodup ∧
      (∀ p ∈ [mkProcess "P1" 0 2 (some 1)], 0 ≤ p.arrival_time) ∧
      (∀ p ∈ [mkProcess "P1" 0 2 (some 1)], 0 < p.burst_time) ∧
      (0 : ℚ) < 1 ∧
      chainedTo 0 (fcfs_scheduling [mkProcess "P1" 0 2 (some 1)]).schedule
        (scheduleMaxEnd (fcfs_scheduling [mkProcess "P1" 0 2 (some 1)]).schedule) :=
  ⟨by simp, by simp [mkProcess], by norm_num [mkProcess], one_pos,
    (C6_chronological [mkProcess "P1" 0 2 (some 1)] 1 (by simp)
      (by simp [mkProcess]) (by norm_num [mkProcess]) one_pos).1⟩

/-! ## Permutation invariance (C7) -/

lemma perm_isEmpty {α : Type} {l m : List α} (h : List.Perm l m) :
    l.isEmpty = m.isEmpty := by
  have hlen := h.length_eq
  cases l <;> cases m <;> simp_all

lemma pyMinBy_eq_none {α κ : Type} {key : α → κ} {klt : κ → κ → Bool}
    {l : List α} : pyMinBy key klt l = none ↔ l = [] := by
  cases l with
  | nil => simp [pyMinBy]
  | cons x xs => simp [pyMinBy]

lemma arrivalKeyLE_antisymm_on {l : List Process}
    (hnd : (l.map Process.pid).Nodup) :
    ∀ a ∈ l, ∀ b ∈ l, arrivalKeyLE a b = true → arrivalKeyLE b a = true →
      a = b := by
  intro a ha b hb h₁ h₂
  have hkey : ((a.arrival_time, a.pid) : ℚ × String) =
      (b.arrival_time, b.pid) := keyLE_antisymm h₁ h₂
  have hpid : a.pid = b.pid := congrArg Prod.snd hkey
  exact List.inj_on_of_nodup_map hnd ha hb hpid

lemma insertionSort_perm_eq {l₁ l₂ : List Process}
    (hperm : List.Perm l₁ l₂) (hnd : (l₁.map Process.pid).Nodup) :
    insertionSort arrivalKeyLE l₁ = insertionSort arrivalKeyLE l₂ := by
  refine sorted_perm_eq
    ((insertionSort_perm _ l₁).trans (hperm.trans (insertionSort_perm _ l₂).symm))
    ?_
    (insertionSort_pairwise arrivalKeyLE_total arrivalKeyLE_trans l₁)
    (insertionSort_pairwise arrivalKeyLE_total arrivalKeyLE_trans l₂)
  intro a ha b hb h₁ h₂
  exact arrivalKeyLE_antisymm_on hnd a (sorted_mem ha) b (sorted_mem hb) h₁ h₂

lemma perm_metrics {l₁ l₂ : List Process} (h : List.Perm l₁ l₂)
    (s : List Entry) : calculate_metrics l₁ s = calculate_metrics l₂ s := by
  have ht := h.filterMap
    (fun p => (completion_times s p.pid).map fun c => c - p.arrival_time)
  have hw := h.filterMap
    (fun p => (completion_times s p.pid).map fun c =>
      c - p.arrival_time - p.burst_time)
  simp only [calculate_metrics, ht.sum_eq, ht.length_eq, hw.sum_eq,
    hw.length_eq, h.length_eq, perm_isEmpty ht, perm_isEmpty hw]

lemma pyMinBy_arrival_value {l₁ l₂ : List Process} (hperm : List.Perm l₁ l₂)
    {m₁ m₂ : Process}
    (h₁ : pyMinBy (fun p => p.arrival_time) (fun a b => decide (a < b)) l₁ =
      some m₁)
    (h₂ : pyMinBy (fun p => p.arrival_time) (fun a b => decide (a < b)) l₂ =
      some m₂) : m₁.arrival_time = m₂.arrival_time := by
  obtain ⟨hm₁, hmin₁⟩ := pyMinBy_spec qlt_trans qlt_asymm h₁
  obtain ⟨hm₂, hmin₂⟩ := pyMinBy_spec qlt_trans qlt_asymm h₂
  have ha : decide (m₂.arrival_time < m₁.arrival_time) = false :=
    hmin₁ m₂ (hperm.mem_iff.mpr hm₂)
  have hb : decide (m₁.arrival_time < m₂.arrival_time) = false :=
    hmin₂ m₁ (hperm.mem_iff.mp hm₁)
  rw [decide_eq_false_iff_not] at ha hb
  push_neg at ha hb
  exact le_antisymm ha hb

lemma pyMinBy_keyLT_perm {κ : Type} [LinearOrder κ] {key : Process → κ × String}
    (hkeypid : ∀ p, (key p).2 = p.pid) {big : List Process}
    (hndbig : (big.map Process.pid).Nodup) {l₁ l₂ : List Process}
    (hperm : List.Perm l₁ l₂) (hsub : ∀ p ∈ l₁, p ∈ big) {m₁ m₂ : Process}
    (h₁ : pyMinBy key keyLT l₁ = some m₁)
    (h₂ : pyMinBy key keyLT l₂ = some m₂) : m₁ = m₂ := by
  obtain ⟨hm₁, hmin₁⟩ := pyMinBy_spec
    (fun a b c ha hb => @keyLT_trans κ _ a b c ha hb)
    (fun a b ha => @keyLT_asymm κ _ a b ha) h₁
  obtain ⟨hm₂, hmin₂⟩ := pyMinBy_spec
    (fun a b c ha hb => @keyLT_trans κ _ a b c ha hb)
    (fun a b ha => @keyLT_asymm κ _ a b ha) h₂
  have hm₂1 : m₂ ∈ l₁ := hperm.mem_iff.mpr hm₂
  have ha := hmin₁ m₂ hm₂1
  have hb := hmin₂ m₁ (hperm.mem_iff.mp hm₁)
  have hkey : key m₂ = key m₁ := keyLT_connex ha hb
  have hpid : m₂.pid = m₁.pid := by
    rw [← hkeypid m₂, ← hkeypid m₁, hkey]
  exact (List.inj_on_of_nodup_map hndbig (hsub m₂ hm₂1) (hsub m₁ hm₁)
    hpid).symm

lemma npLoop_perm {κ : Type} [LinearOrder κ] (key : Process → κ × String)
    (hkeypid : ∀ p, (key p).2 = p.pid)
    {copies₁ copies₂ : List Process} (hperm : List.Perm copies₁ copies₂)
    (hnd : (copies₁.map Process.pid).Nodup) :
    ∀ (fuel : Nat) (completed : List String) (t : ℚ) (sched : List Entry),
      npLoop key copies₁ fuel completed t sched =
        npLoop key copies₂ fuel completed t sched := by
  intro fuel
  induction fuel with
  | zero => intro _ _ _; rfl
  | succ n ih =>
    intro completed t sched
    have hlen := hperm.length_eq
    have hpermA := hperm.filter
      (fun p => !(completed.any fun x => pidEq x p.pid) &&
        decide (p.arrival_time ≤ t))
    have hpermI := hperm.filter
      (fun p => !(completed.any fun x => pidEq x p.pid))
    simp only [npLoop, hlen, perm_isEmpty hpermA]
    split_ifs with hcount hemp
    · -- idle skip; the minimum arrival VALUE is permutation-invariant
      cases hm₁ : pyMinBy (fun p => p.arrival_time) (fun a b => decide (a < b))
          (copies₁.filter fun p => !(completed.any fun x => pidEq x p.pid)) with
      | none =>
        have hnil₁ := pyMinBy_eq_none.mp hm₁
        have hnil₂ : (copies₂.filter
            fun p => !(completed.any fun x => pidEq x p.pid)) = [] := by
          rw [hnil₁] at hpermI
          exact hpermI.symm.eq_nil
        rw [pyMinBy_eq_none.mpr hnil₂]
      | some next₁ =>
        have hne₂ : (copies₂.filter
            fun p => !(completed.any fun x => pidEq x p.pid)) ≠ [] := by
          intro hc
          rw [hc] at hpermI
          rw [hpermI.eq_nil] at hm₁
          exact absurd hm₁ (by simp [pyMinBy])
        obtain ⟨next₂, hm₂⟩ := pyMinBy_isSome hne₂
        rw [hm₂]
        show npLoop key copies₁ n completed next₁.arrival_time
            (Entry.mk "IDLE" t next₁.arrival_time :: sched) =
          npLoop key copies₂ n completed next₂.arrival_time
            (Entry.mk "IDLE" t next₂.arrival_time :: sched)
        rw [pyMinBy_arrival_value hpermI hm₁ hm₂]
        exact ih completed next₂.arrival_time _
    · -- selection; the unique key-minimal process is permutation-invariant
      cases hm₁ : pyMinBy key keyLT
          (copies₁.filter fun p =>
            !(completed.any fun x => pidEq x p.pid) &&
              decide (p.arrival_time ≤ t)) with
      | none =>
        have hnil₁ := pyMinBy_eq_none.mp hm₁
        have hnil₂ : (copies₂.filter fun p =>
            !(completed.any fun x => pidEq x p.pid) &&
              decide (p.arrival_time ≤ t)) = [] := by
          rw [hnil₁] at hpermA
          exact hpermA.symm.eq_nil
        rw [pyMinBy_eq_none.mpr hnil₂]
      | some sel₁ =>
        have hne₂ : (copies₂.filter fun p =>
            !(completed.any fun x => pidEq x p.pid) &&
              decide (p.arrival_time ≤ t)) ≠ [] := by
          intro hc
          rw [hc] at hpermA
          rw [hpermA.eq_nil] at hm₁
          exact absurd hm₁ (by simp [pyMinBy])
        obtain ⟨sel₂, hm₂⟩ := pyMinBy_isSome hne₂
        rw [hm₂]
        have hsel : sel₁ = sel₂ := pyMinBy_keyLT_perm hkeypid hnd hpermA
          (fun p hp => (List.mem_filter.mp hp).1) hm₁ hm₂
        show npLoop key copies₁ n (sel₁.pid :: completed)
            (t + sel₁.burst_time)
            (Entry.mk sel₁.pid t (t + sel₁.burst_time) :: sched) =
          npLoop key copies₂ n (sel₂.pid :: completed)
            (t + sel₂.burst_time)
            (Entry.mk sel₂.pid t (t + sel₂.burst_time) :: sched)
        rw [hsel]
        exact ih (sel₂.pid :: completed) (t + sel₂.burst_time) _
    · rfl

lemma map_pid_copy (l : List Process) :
    (l.map copyProcess).map Process.pid = l.map Process.pid := by
  rw [List.map_map]
  rfl

lemma find_isNone_perm {l₁ l₂ : List Process} (hperm : List.Perm l₁ l₂) :
    ((l₁.find? fun p => p.priority.isNone) = none ↔
      (l₂.find? fun p => p.priority.isNone) = none) := by
  rw [List.find?_eq_none, List.find?_eq_none]
  constructor <;> intro h x hx
  · exact h x (hperm.mem_iff.mpr hx)
  · exact h x (hperm.mem_iff.mp hx)

/-- C7: permuting the input list (unique pids) leaves the
`SchedulingResult` of `fcfs_scheduling`, `sjf_non_preemptive`,
`sjf_preemptive` and `round_robin` literally unchanged, and the two
priority algorithms produce exactly the same successful
`SchedulingResult`s (when a priority is missing neither order produces
any result: both raise, and only the pid named in the raised error can
depend on the caller's ordering). -/
theorem C7_permutation_invariant (l₁ l₂ : List Process) (tq : ℚ)
    (hperm : List.Perm l₁ l₂) (hnd : (l₁.map Process.pid).Nodup) :
    fcfs_scheduling l₁ = fcfs_scheduling l₂ ∧
    sjf_non_preemptive l₁ = sjf_non_preemptive l₂ ∧
    sjf_preemptive l₁ = sjf_preemptive l₂ ∧
    round_robin l₁ tq = round_robin l₂ tq ∧
    (∀ r, priority_non_preemptive l₁ = .ok r ↔
      priority_non_preemptive l₂ = .ok r) ∧
    (∀ r, priority_preemptive l₁ = .ok r ↔
      priority_preemptive l₂ = .ok r) := by
  have hpc : List.Perm (l₁.map copyProcess) (l₂.map copyProcess) :=
    hperm.map copyProcess
  have hndc : ((l₁.map copyProcess).map Process.pid).Nodup := by
    rw [map_pid_copy]
    exact hnd
  have hlenc := hpc.length_eq
  have hcopy_eq : insertionSort arrivalKeyLE (l₁.map copyProcess) =
      insertionSort arrivalKeyLE (l₂.map copyProcess) :=
    insertionSort_perm_eq hpc hndc
  refine ⟨?_, ?_, ?_, ?_, ?_, ?_⟩
  · simp only [fcfs_scheduling, perm_isEmpty hperm,
      insertionSort_perm_eq hperm hnd, perm_metrics hperm]
  · have hnp := npLoop_perm (fun p => (p.burst_time, p.pid))
      (fun _ => rfl) hpc hndc
    simp only [sjf_non_preemptive, perm_isEmpty hperm, hlenc, hnp,
      perm_metrics hperm]
  · simp only [sjf_preemptive, sjfPreemptiveRun, perm_isEmpty hperm,
      hcopy_eq, perm_metrics hperm]
  · simp only [round_robin, perm_isEmpty hperm, hcopy_eq,
      perm_metrics hperm]
  · intro r
    simp only [priority_non_preemptive, perm_isEmpty hperm]
    by_cases hemp : l₂.isEmpty
    · simp [hemp]
    · simp only [if_neg hemp]
      cases hf₁ : l₁.find? (fun p => p.priority.isNone) with
      | some p =>
        cases hf₂ : l₂.find? (fun p => p.priority.isNone) with
        | none =>
          rw [(find_isNone_perm hperm).mpr hf₂] at hf₁
          cases hf₁
        | some q => simp
      | none =>
        have hf₂ := (find_isNone_perm hperm).mp hf₁
        have hnp := npLoop_perm (fun p => (p.priority.getD 0, p.pid))
          (fun _ => rfl) hpc hndc
        simp only [hf₂, hlenc, hnp, perm_metrics hperm]
  · intro r
    simp only [priority_preemptive, priorityPreemptiveRun,
      perm_isEmpty hperm]
    by_cases hemp : l₂.isEmpty
    · simp [hemp]
    · simp only [if_neg hemp]
      cases hf₁ : l₁.find? (fun p => p.priority.isNone) with
      | some p =>
        cases hf₂ : l₂.find? (fun p => p.priority.isNone) with
        | none =>
          rw [(find_isNone_perm hperm).mpr hf₂] at hf₁
          cases hf₁
        | some q => simp [Except.map]
      | none =>
        have hf₂ := (find_isNone_perm hperm).mp hf₁
        simp only [hf₂, hcopy_eq, perm_metrics hperm]

/-- Witness for C7 at the concrete pair of mutually permuted lists
`[c7A, c7B]` and `[c7B, c7A]`. -/
theorem C7_witness :
    ([c7A, c7B].map Process.pid).Nodup ∧
    (fcfs_scheduling [c7A, c7B] = fcfs_scheduling [c7B, c7A] ∧
    sjf_non_preemptive [c7A, c7B] = sjf_non_preemptive [c7B, c7A] ∧
    sjf_preemptive [c7A, c7B] = sjf_preemptive [c7B, c7A] ∧
    round_robin [c7A, c7B] 1 = round_robin [c7B, c7A] 1 ∧
    (∀ r, priority_non_preemptive [c7A, c7B] = .ok r ↔
      priority_non_preemptive [c7B, c7A] = .ok r) ∧
    (∀ r, priority_preemptive [c7A, c7B] = .ok r ↔
      priority_preemptive [c7B, c7A] = .ok r)) :=
  ⟨by decide,
    C7_permutation_invariant [c7A, c7B] [c7B, c7A] 1
      (List.Perm.swap c7B c7A []) (by decide)⟩

/-! ## C1: the selection rule the preemptive loop actually implements -/

lemma heapTupleLE_total {κ : Type} [LinearOrder κ]
    (a b : κ × String × Process) :
    heapTupleLE a b = true ∨ heapTupleLE b a = true :=
  keyLE_total _ _

lemma heapTupleLE_trans {κ : Type} [LinearOrder κ]
    (a b c : κ × String × Process) (h₁ : heapTupleLE a b = true)
    (h₂ : heapTupleLE b c = true) : heapTupleLE a c = true :=
  keyLE_trans h₁ h₂

lemma admitLoop_inv {κ : Type} [LinearOrder κ] (hkey : Process → κ) :
    ∀ (pending : List Process) (t : ℚ)
      (ready : List (κ × String × Process)),
      heapSorted ready →
      (∀ x ∈ ready, x.1 = hkey x.2.2 ∧ x.2.1 = x.2.2.pid) →
      heapSorted (admitLoop hkey pending t ready).2 ∧
      (∀ x ∈ (admitLoop hkey pending t ready).2,
        x.1 = hkey x.2.2 ∧ x.2.1 = x.2.2.pid) ∧
      List.Perm
        ((admitLoop hkey pending t ready).1.map Process.pid ++
          (admitLoop hkey pending t ready).2.map fun x => x.2.1)
        (pending.map Process.pid ++ ready.map fun x => x.2.1)
  | [], t, ready => by
    intro hs ha
    simp only [admitLoop]
    exact ⟨hs, ha, List.Perm.refl _⟩
  | p :: rest, t, ready => by
    intro hs ha
    simp only [admitLoop]
    by_cases h : p.arrival_time ≤ t
    · simp only [if_pos h]
      have hs' : heapSorted
          (insertSorted heapTupleLE (hkey p, p.pid, p) ready) :=
        insertSorted_pairwise heapTupleLE_total heapTupleLE_trans hs
      have ha' : ∀ x ∈ insertSorted heapTupleLE (hkey p, p.pid, p) ready,
          x.1 = hkey x.2.2 ∧ x.2.1 = x.2.2.pid := by
        intro x hx
        rcases mem_insertSorted.mp hx with rfl | hx2
        · exact ⟨rfl, rfl⟩
        · exact ha x hx2
      obtain ⟨h1, h2, h3⟩ := admitLoop_inv hkey rest t _ hs' ha'
      refine ⟨h1, h2, h3.trans ?_⟩
      have hins : List.Perm
          ((insertSorted heapTupleLE (hkey p, p.pid, p) ready).map
            fun x => x.2.1)
          (p.pid :: ready.map fun x => x.2.1) :=
        (insertSorted_perm heapTupleLE (hkey p, p.pid, p) ready).map _
      refine (List.Perm.append_left _ hins).trans ?_
      simp only [List.map_cons]
      exact List.perm_middle
    · simp only [if_neg h]
      exact ⟨hs, ha, List.Perm.refl _⟩

lemma keyLE_keyLT_false {κ : Type} [LinearOrder κ] {a b : κ × String}
    (h : keyLE a b = true) : keyLT b a = false := by
  rw [Bool.eq_false_iff]
  intro hc
  exact keyLT_not_keyLE.mp hc h

lemma foldl_min_keep :
    ∀ (cs : List (String × ℚ)) (c : String × ℚ),
      (∀ q ∈ cs, keyLT (q.2, q.1) (c.2, c.1) = false) →
      cs.foldl (fun best q =>
        if keyLT (q.2, q.1) (best.2, best.1) then q else best) c = c
  | [], _, _ => rfl
  | q :: cs, c, h => by
    rw [List.foldl_cons]
    have hq := h q (List.mem_cons_self q cs)
    have hred : (if keyLT (q.2, q.1) (c.2, c.1) = true then q else c) = c := by
      simp [hq]
    show List.foldl _ (if keyLT (q.2, q.1) (c.2, c.1) = true then q else c)
      cs = c
    rw [hred]
    exact foldl_min_keep cs c fun y hy => h y (List.mem_cons.mpr (Or.inr hy))

lemma specMinPid_sorted_head {x : ℚ × String × Process}
    {ready2 : List (ℚ × String × Process)}
    (hs : heapSorted (x :: ready2))
    (ha : ∀ y ∈ x :: ready2,
      y.1 = y.2.2.remaining_time ∧ y.2.1 = y.2.2.pid) :
    specMinPid ((x :: ready2).map fun y => (y.2.1, y.2.2.remaining_time)) =
      some x.2.2.pid := by
  have hmin : ∀ q ∈ ready2.map fun y => (y.2.1, y.2.2.remaining_time),
      keyLT (q.2, q.1) (x.2.2.remaining_time, x.2.1) = false := by
    intro q hq
    obtain ⟨y, hy, rfl⟩ := List.mem_map.mp hq
    have hle : keyLE (x.1, x.2.1) (y.1, y.2.1) = true :=
      (List.pairwise_cons.mp hs).1 y hy
    have hx1 := (ha x (List.mem_cons_self x ready2)).1
    have hy1 := (ha y (List.mem_cons.mpr (Or.inr hy))).1
    show keyLT (y.2.2.remaining_time, y.2.1)
      (x.2.2.remaining_time, x.2.1) = false
    rw [← hx1, ← hy1]
    exact keyLE_keyLT_false hle
  simp only [List.map_cons, specMinPid]
  rw [foldl_min_keep (ready2.map fun y => (y.2.1, y.2.2.remaining_time))
    (x.2.1, x.2.2.remaining_time) hmin]
  rw [(ha x (List.mem_cons_self x ready2)).2]

lemma perm_swap_ends (a b : String) (R : List String) :
    List.Perm ((a :: R) ++ [b]) ((b :: R) ++ [a]) := by
  simp only [List.cons_append]
  refine ((List.perm_append_singleton b R).cons a).trans ?_
  refine (List.Perm.swap b a R).trans ?_
  exact ((List.perm_append_singleton a R).symm).cons b

lemma pLoop_sjf_steps (n : Nat) :
    ∀ (fuel : Nat) (pending : List Process)
      (ready : List (ℚ × String × Process)) (current : Option Process)
      (completed : List String) (t : ℚ) (sched : List Entry)
      (steps : List StepRec),
      heapSorted ready →
      (∀ x ∈ ready, x.1 = x.2.2.remaining_time ∧ x.2.1 = x.2.2.pid) →
      (statePids pending ready current).Nodup →
      (∀ st ∈ steps, amendedStepOK st) →
      ∀ out,
        pLoop (fun p => p.remaining_time) n fuel pending ready current
          completed t sched steps = .ok out →
        ∀ st ∈ out.2, amendedStepOK st := by
  intro fuel
  induction fuel with
  | zero =>
    intro pending ready current completed t sched steps _ _ _ _ out hout
    exact absurd hout (by simp [pLoop])
  | succ m ih =>
    intro pending ready current completed t sched steps hsort hacc hnd hall
      out hout
    simp only [pLoop, Process.execute] at hout
    split_ifs at hout with hcount
    · rcases hadm : admitLoop (fun p => p.remaining_time) pending t ready
        with ⟨pending1, ready1⟩
      have hAI := admitLoop_inv (fun p => p.remaining_time) pending t ready
        hsort hacc
      rw [hadm] at hAI
      obtain ⟨hsort1, hacc1, hperm1⟩ := hAI
      simp only [hadm] at hout
      have hnd1 : (statePids pending1 ready1 current).Nodup := by
        have hp : List.Perm (statePids pending ready current)
            (statePids pending1 ready1 current) := by
          simp only [statePids]
          exact hperm1.symm.append_right _
        exact hp.nodup hnd
      have execStep : ∀ (c : Process) (ready' : List (ℚ × String × Process))
          (steps1 : List StepRec),
          heapSorted ready' →
          (∀ x ∈ ready', x.1 = x.2.2.remaining_time ∧ x.2.1 = x.2.2.pid) →
          (statePids pending1 ready' (some c)).Nodup →
          (∀ st ∈ steps1, amendedStepOK st) →
          (if ({ c with remaining_time :=
                c.remaining_time - min 1 c.remaining_time } : Process).is_completed
            then pLoop (fun p => p.remaining_time) n m pending1 ready' none
              (setAdd completed c.pid) (t + min 1 c.remaining_time)
              (appendOrExtend sched c.pid t (t + min 1 c.remaining_time))
              steps1
            else pLoop (fun p => p.remaining_time) n m pending1 ready'
              (some { c with remaining_time :=
                c.remaining_time - min 1 c.remaining_time })
              completed (t + min 1 c.remaining_time)
              (appendOrExtend sched c.pid t (t + min 1 c.remaining_time))
              steps1) = .ok out →
          ∀ st ∈ out.2, amendedStepOK st := by
        intro c ready' steps1 hs' ha' hnd' hall1 hx
        split_ifs at hx with hdone
        · refine ih pending1 ready' none (setAdd completed c.pid) _ _ steps1
            hs' ha' ?_ hall1 out hx
          have hsub : List.Sublist
              (statePids pending1 ready' (none : Option Process))
              (statePids pending1 ready' (some c)) := by
            simp only [statePids, Option.map_none', Option.toList_none,
              Option.map_some', Option.toList_some]
            exact (List.nil_sublist [c.pid]).append_left _
          exact hsub.nodup hnd'
        · exact ih pending1 ready'
            (some { c with remaining_time :=
              c.remaining_time - min 1 c.remaining_time })
            completed _ _ steps1 hs' ha' hnd' hall1 out hx
      cases ready1 with
      | nil =>
        cases current with
        | some c =>
          refine execStep c [] _ List.Pairwise.nil (by simp) hnd1 ?_ hout
          intro st hst
          rcases List.mem_cons.mp hst with rfl | hst2
          · exact ⟨fun _ => rfl, fun hne => absurd rfl hne⟩
          · exact hall st hst2
        | none =>
          cases pending1 with
          | cons p rest => exact absurd hout (by simp)
          | nil =>
            injection hout with hout2
            subst hout2
            intro st hst
            exact hall st (List.mem_reverse.mp hst)
      | cons x ready2 =>
        have hsort2 : heapSorted ready2 := (List.pairwise_cons.mp hsort1).2
        have hacc2 : ∀ y ∈ ready2, y.1 = y.2.2.remaining_time ∧
            y.2.1 = y.2.2.pid :=
          fun y hy => hacc1 y (List.mem_cons.mpr (Or.inr hy))
        have hxacc := hacc1 x (List.mem_cons_self x ready2)
        have hspec : specMinPid ((x :: ready2).map
            fun y => (y.2.1, y.2.2.remaining_time)) = some x.2.2.pid :=
          specMinPid_sorted_head hsort1 hacc1
        cases current with
        | none =>
          refine execStep x.2.2 ready2 _ hsort2 hacc2 ?_ ?_ hout
          · have hclean : ((pending1.map Process.pid) ++
                (x.2.1 :: ready2.map fun y => y.2.1)).Nodup := by
              have h0 := hnd1
              simp only [statePids, List.map_cons, Option.map_none',
                Option.toList_none, List.append_nil] at h0
              exact h0
            have hq : List.Perm ((pending1.map Process.pid) ++
                (x.2.1 :: ready2.map fun y => y.2.1))
                (((pending1.map Process.pid) ++
                  (ready2.map fun y => y.2.1)) ++ [x.2.1]) := by
              rw [List.append_assoc]
              exact List.Perm.append_left _
                (List.perm_append_singleton x.2.1 _).symm
            have hnew := hq.nodup hclean
            rw [hxacc.2] at hnew
            exact hnew
          · intro st hst
            rcases List.mem_cons.mp hst with rfl | hst2
            · refine ⟨fun hemp => absurd hemp (by simp),
                fun _ => ⟨hspec, ?_⟩⟩
              intro pr hpr
              cases hpr
            · exact hall st hst2
        | some c =>
          by_cases hpid : pidEq x.2.2.pid c.pid = true
          · exfalso
            have heq : x.2.2.pid = c.pid := eq_of_beq hpid
            have hclean : (((pending1.map Process.pid) ++
                (x.2.1 :: ready2.map fun y => y.2.1)) ++ [c.pid]).Nodup := by
              have h0 := hnd1
              simp only [statePids, List.map_cons, Option.map_some',
                Option.toList_some] at h0
              exact h0
            have hdisj := List.disjoint_of_nodup_append hclean
            exact hdisj
              (List.mem_append.mpr (Or.inr (List.mem_cons_self _ _)))
              (by rw [hxacc.2, heq]; exact List.mem_singleton.mpr rfl)
          · simp only [if_neg hpid] at hout
            have hne : x.2.2.pid ≠ c.pid := by
              intro hcon
              simp [pidEq, hcon] at hpid
            have hclean : (((pending1.map Process.pid) ++
                (x.2.1 :: ready2.map fun y => y.2.1)) ++ [c.pid]).Nodup := by
              have h0 := hnd1
              simp only [statePids, List.map_cons, Option.map_some',
                Option.toList_some] at h0
              exact h0
            have hstepOK : ∀ st ∈ steps, amendedStepOK st := hall
            by_cases hic : c.is_completed = true
            · simp only [if_pos hic] at hout
              refine execStep x.2.2 ready2 _ hsort2 hacc2 ?_ ?_ hout
              · have h0 := List.Nodup.of_append_left hclean
                have hq : List.Perm ((pending1.map Process.pid) ++
                    (x.2.1 :: ready2.map fun y => y.2.1))
                    (((pending1.map Process.pid) ++
                      (ready2.map fun y => y.2.1)) ++ [x.2.1]) := by
                  rw [List.append_assoc]
                  exact List.Perm.append_left _
                    (List.perm_append_singleton x.2.1 _).symm
                have hnew := hq.nodup h0
                rw [hxacc.2] at hnew
                exact hnew
              · intro st hst
                rcases List.mem_cons.mp hst with rfl | hst2
                · refine ⟨fun hemp => absurd hemp (by simp),
                    fun _ => ⟨hspec, ?_⟩⟩
                  intro pr hpr
                  injection hpr with hpr2
                  subst hpr2
                  exact hne
                · exact hall st hst2
            · simp only [if_neg hic] at hout
              refine execStep x.2.2 _ _ ?_ ?_ ?_ ?_ hout
              · exact insertSorted_pairwise heapTupleLE_total
                  heapTupleLE_trans hsort2
              · intro y hy
                rcases mem_insertSorted.mp hy with rfl | hy2
                · exact ⟨rfl, rfl⟩
                · exact hacc2 y hy2
              · have hins : List.Perm
                    ((insertSorted heapTupleLE
                      (c.remaining_time, c.pid, c) ready2).map
                        fun y => y.2.1)
                    (c.pid :: ready2.map fun y => y.2.1) :=
                  (insertSorted_perm heapTupleLE
                    (c.remaining_time, c.pid, c) ready2).map _
                have hq : List.Perm (((pending1.map Process.pid) ++
                    (x.2.1 :: ready2.map fun y => y.2.1)) ++ [c.pid])
                    (((pending1.map Process.pid) ++
                      ((insertSorted heapTupleLE
                        (c.remaining_time, c.pid, c) ready2).map
                          fun y => y.2.1)) ++ [x.2.1]) := by
                  rw [List.append_assoc, List.append_assoc]
                  refine List.Perm.append_left _ ?_
                  refine (perm_swap_ends x.2.1 c.pid
                    (ready2.map fun y => y.2.1)).trans ?_
                  exact (hins.append_right [x.2.1]).symm
                have hnew := hq.nodup hclean
                rw [hxacc.2] at hnew
                exact hnew
              · intro st hst
                rcases List.mem_cons.mp hst with rfl | hst2
                · refine ⟨fun hemp => absurd hemp (by simp),
                    fun _ => ⟨hspec, ?_⟩⟩
                  intro pr hpr
                  injection hpr with hpr2
                  subst hpr2
                  exact hne
                · exact hall st hst2
    · injection hout with hout2
      subst hout2
      intro st hst
      exact hall st (List.mem_reverse.mp hst)

/-- C1 (amended): on every input with unique pids, each recorded
1.0-unit execution step of `sjf_preemptive` satisfies the rule the code
actually implements — when no other process is in the ready heap the
previously running process continues, and when the heap is non-empty
the `(remaining_time, pid)`-least HEAP member executes and a context
switch away from the previously running process always occurs (the
running process's own remaining time is never compared). -/
theorem C1_amended (processes : List Process)
    (hnd : (processes.map Process.pid).Nodup)
    (out : SchedulingResult × List StepRec)
    (hok : sjfPreemptiveRun processes = .ok out) :
    ∀ st ∈ out.2, amendedStepOK st := by
  by_cases hemp : processes.isEmpty
  · simp only [sjfPreemptiveRun, if_pos hemp] at hok
    injection hok with h2
    subst h2
    intro st hst
    simp at hst
  · simp only [sjfPreemptiveRun, if_neg hemp] at hok
    obtain ⟨pout, hploop, hout⟩ := exceptMap_ok hok
    subst hout
    intro st hst
    have hndsorted : ((insertionSort arrivalKeyLE
        (processes.map copyProcess)).map Process.pid).Nodup := by
      have hpm : List.Perm
          ((insertionSort arrivalKeyLE (processes.map copyProcess)).map
            Process.pid)
          ((processes.map copyProcess).map Process.pid) :=
        (insertionSort_perm arrivalKeyLE (processes.map copyProcess)).map _
      rw [map_pid_copy] at hpm
      exact hpm.symm.nodup hnd
    refine pLoop_sjf_steps _ _ _ _ none _ _ _ _
      List.Pairwise.nil (by simp) ?_ (by simp) pout hploop st hst
    show (statePids (insertionSort arrivalKeyLE (processes.map copyProcess))
      ([] : List (ℚ × String × Process)) none).Nodup
    simp only [statePids, List.map_nil, Option.map_none', Option.toList_none,
      List.append_nil]
    exact hndsorted

set_option maxHeartbeats 1000000 in
/-- Witness for the amended C1 theorem on the one-process input
`[Process("P1", 0, 1)]`, whose single recorded step executes `P1`. -/
theorem C1_witness :
    (([mkProcess "P1" 0 1 none].map Process.pid).Nodup) ∧
    ∀ st ∈ ((⟨[Entry.mk "P1" 0 1], some (Metrics.mk 1 0 100 1 1),
        "Shortest Job First (Preemptive)"⟩ : SchedulingResult),
      [StepRec.mk 0 "P1" none [("P1", 1)]]).2, amendedStepOK st := by
  have hrun : sjfPreemptiveRun [mkProcess "P1" 0 1 none] =
      .ok (⟨[Entry.mk "P1" 0 1], some (Metrics.mk 1 0 100 1 1),
        "Shortest Job First (Preemptive)"⟩,
        [StepRec.mk 0 "P1" none [("P1", 1)]]) := by
    norm_num [sjfPreemptiveRun, insertionSort, insertSorted, preemptiveFuel,
      pLoop, admitLoop, mkProcess, copyProcess, Except.map, arrivalKeyLE,
      keyLE, keyLT, pidLE, pidLT, charsLT, heapTupleLE, Process.execute,
      Process.is_completed, appendOrExtend, setAdd, calculate_metrics,
      completion_times, scheduleMaxEnd, round2, round_eq, specMinPid,
      List.filter_cons, List.filterMap_cons, pidEq_P1_P1, pidEq_P1_IDLE]
  exact ⟨by decide, C1_amended [mkProcess "P1" 0 1 none] (by decide) _ hrun⟩

/-! ## One round-robin iteration (C5) -/

lemma arrivalKeyLE_le {p q : Process} (h : arrivalKeyLE p q = true) :
    p.arrival_time ≤ q.arrival_time := by
  rcases keyLE_iff.mp h with h1 | ⟨h1, _⟩
  · exact le_of_lt h1
  · exact le_of_eq h1

lemma rrAdmit_sorted_eq :
    ∀ (pending : List Process) (t : ℚ) (queue : List Process),
      pending.Pairwise (fun p q => arrivalKeyLE p q = true) →
      rrAdmit pending t queue =
        (pending.filter fun p => !(decide (p.arrival_time ≤ t)),
          queue ++ pending.filter fun p => decide (p.arrival_time ≤ t))
  | [], t, queue, _ => by simp [rrAdmit]
  | p :: rest, t, queue, hpw => by
    obtain ⟨hp, hrest⟩ := List.pairwise_cons.mp hpw
    simp only [rrAdmit]
    by_cases h : p.arrival_time ≤ t
    · simp only [if_pos h]
      rw [rrAdmit_sorted_eq rest t (queue ++ [p]) hrest]
      have hc1 : (p :: rest).filter
          (fun q => !(decide (q.arrival_time ≤ t))) =
          rest.filter fun q => !(decide (q.arrival_time ≤ t)) := by
        simp [List.filter_cons, h]
      have hc2 : (p :: rest).filter
          (fun q => decide (q.arrival_time ≤ t)) =
          p :: rest.filter fun q => decide (q.arrival_time ≤ t) := by
        simp [List.filter_cons, h]
      rw [hc1, hc2, ← List.append_cons]
    · simp only [if_neg h]
      have hall : ∀ q ∈ rest, ¬ q.arrival_time ≤ t := by
        intro q hq hc
        exact h (le_trans (arrivalKeyLE_le (hp q hq)) hc)
      have h1 : (p :: rest).filter
          (fun p => !(decide (p.arrival_time ≤ t))) = p :: rest := by
        rw [List.filter_eq_self]
        intro a ha
        rcases List.mem_cons.mp ha with rfl | ha2
        · simp [h]
        · simp [hall a ha2]
      have h2 : (p :: rest).filter
          (fun p => decide (p.arrival_time ≤ t)) = [] := by
        rw [List.filter_eq_nil_iff]
        intro a ha
        rcases List.mem_cons.mp ha with rfl | ha2
        · simp [h]
        · simp [hall a ha2]
      rw [h1, h2, List.append_nil]

lemma specArrivedSorted_of_sorted {pending : List Process} (t : ℚ)
    (hpw : pending.Pairwise fun p q => arrivalKeyLE p q = true)
    (hnd : (pending.map Process.pid).Nodup) :
    specArrivedSorted pending t =
      pending.filter fun p => decide (p.arrival_time ≤ t) := by
  rw [specArrivedSorted]
  refine sorted_perm_eq (insertionSort_perm _ _) ?_
    (insertionSort_pairwise arrivalKeyLE_total arrivalKeyLE_trans _)
    (List.Pairwise.sublist (List.filter_sublist _) hpw)
  intro a ha b hb h1 h2
  exact arrivalKeyLE_antisymm_on hnd a
    (List.mem_of_mem_filter (sorted_mem ha)) b
    (List.mem_of_mem_filter (sorted_mem hb)) h1 h2

set_option maxRecDepth 16000 in
/-- C5: one iteration of the `round_robin` loop from a state with a
non-empty ready queue, a pending list sorted by `(arrival_time, pid)`
with unique pids, and no pending process arrived yet: the head of the
FIFO queue is dequeued and executed for exactly
`min(time_quantum, remaining_time)`, a schedule entry is emitted or a
contiguous one extended (`appendOrExtend`), every process whose arrival
fell within the execution interval is admitted in ascending
`(arrival_time, pid)` order (`specArrivedSorted`), and only then is the
just-run process, if incomplete, re-appended at the tail (a completed
one is instead marked done). -/
theorem C5_round_robin_iteration (n : Nat) (tq : ℚ) (fuel : Nat)
    (pending rest : List Process) (c : Process)
    (completed : List String) (t : ℚ) (sched : List Entry)
    (hcount : completed.length < n)
    (hpw : pending.Pairwise fun p q => arrivalKeyLE p q = true)
    (hnd : (pending.map Process.pid).Nodup)
    (hfut : ∀ p ∈ pending, t < p.arrival_time) :
    rrLoop n tq (fuel + 1) pending (c :: rest) completed t sched =
      (let execution_time := min tq c.remaining_time
       let end_time := t + execution_time
       let c' : Process :=
         { c with remaining_time := c.remaining_time - execution_time }
       let admitted := specArrivedSorted pending end_time
       let pending2 := pending.filter
         fun p => !(decide (p.arrival_time ≤ end_time))
       let sched2 := appendOrExtend sched c.pid t end_time
       if c'.is_completed then
         rrLoop n tq fuel pending2 (rest ++ admitted)
           (setAdd completed c.pid) end_time sched2
       else
         rrLoop n tq fuel pending2 ((rest ++ admitted) ++ [c'])
           completed end_time sched2) := by
  have hadm := rrAdmit_sorted_eq pending (t + min tq c.remaining_time) rest
    hpw
  have hspec := specArrivedSorted_of_sorted (t + min tq c.remaining_time)
    hpw hnd
  simp only [rrLoop]
  simp only [if_pos hcount]
  simp only [Process.execute]
  simp only [hadm]
  simp only [hspec]

/-- Witness for C5: the concrete state with running process
`P1(0, burst 2)` at time 0, quantum 1, and pending `P2(1, burst 1)`. -/
theorem C5_witness :
    ((0 : Nat) < 2 ∧
      ([mkProcess "P2" 1 1 none].Pairwise
        fun p q => arrivalKeyLE p q = true) ∧
      (([mkProcess "P2" 1 1 none].map Process.pid).Nodup) ∧
      (∀ p ∈ [mkProcess "P2" 1 1 none], (0 : ℚ) < p.arrival_time)) ∧
    rrLoop 2 1 6 [mkProcess "P2" 1 1 none] [mkProcess "P1" 0 2 none] [] 0
        [] =
      (let execution_time := min 1 (mkProcess "P1" 0 2 none).remaining_time
       let end_time := 0 + execution_time
       let c' : Process :=
         { mkProcess "P1" 0 2 none with remaining_time :=
            (mkProcess "P1" 0 2 none).remaining_time - execution_time }
       let admitted := specArrivedSorted [mkProcess "P2" 1 1 none] end_time
       let pending2 := [mkProcess "P2" 1 1 none].filter
         fun p => !(decide (p.arrival_time ≤ end_time))
       let sched2 := appendOrExtend [] (mkProcess "P1" 0 2 none).pid 0
         end_time
       if c'.is_completed then
         rrLoop 2 1 5 pending2 ([] ++ admitted)
           (setAdd [] (mkProcess "P1" 0 2 none).pid) end_time sched2
       else
         rrLoop 2 1 5 pending2 (([] ++ admitted) ++ [c'])
           [] end_time sched2) :=
  ⟨⟨by decide, by decide, by decide, by decide⟩,
    C5_round_robin_iteration 2 1 5 [mkProcess "P2" 1 1 none] []
      (mkProcess "P1" 0 2 none) [] 0 [] (by decide) (by decide) (by decide)
      (by decide)⟩

end OSSchedulerPro
